import Mathlib

/-!
# cassandradd: the bounded-concurrency batch loop, the config reader and `comma`

A shallow embedding of `main.go`.

* The `run` command's batch loop (`main.go` 211-228) together with `insertData`
  (`main.go` 133-148) is a small-step machine: one launcher thread (the body of the
  `Action`) and one goroutine per `go func(y int)` statement.  A scheduler picks, at every
  step, which thread moves; all theorems quantify over every schedule.
* `parseLine` / `readConfig` (`main.go` 22-57) and the `Sprintf` of `InitCassandraConfig`
  (`main.go` 106) are pure functions on lists of characters.  `readConfig` takes the file:
  its `bufio.Scanner` is run over the file's content, with the default token limit of
  64 KiB at which it stops with `bufio.ErrTooLong`.
* `comma` (`main.go` 59-81) is a pure function on Go's 64-bit `int`.
-/

namespace CassandraDD

/-- Go strings, as sequences of code points. -/
abbrev Str := List Char

/-! ## Go's `int` and `fmt` -/

/-- Two's complement wrap-around of a mathematical integer into Go's 64-bit `int`. -/
def wrapInt (v : Int) : Int := (v + 2 ^ 63) % 2 ^ 64 - 2 ^ 63

/-- Smallest value of Go's `int`. -/
def minInt : Int := -(2 ^ 63)

/-- Largest value of Go's `int`. -/
def maxInt : Int := 2 ^ 63 - 1

/-- The verb `%d` of `fmt.Sprintf` on an `int`: decimal digits, preceded by `-` for a
negative value. -/
def fmtD (v : Int) : Str :=
  if v < 0 then '-' :: Nat.toDigits 10 (-v).toNat else Nat.toDigits 10 v.toNat

/-! ## `comma` (main.go 59-81) -/

/-- The loop of `comma` and the `if` that follows it: while `str` has more than three
bytes its last three are put in front of `result`; what is left of `str`, unless empty, is
put in front at the end.  The first argument bounds the number of iterations; the loop
shortens `str` every time, so `str.length` iterations are never used up
(`commaGroups_eq`). -/
def commaLoop : Nat → Str → List Str → List Str
  | 0, _, result => result
  | fuel + 1, str, result =>
    if str.length > 3 then
      commaLoop fuel (str.take (str.length - 3)) (str.drop (str.length - 3) :: result)
    else if str.length > 0 then str :: result
    else result

/-- The groups `comma` joins: the loop run on `str` with `result` initially empty. -/
def commaGroups (str : Str) (result : List Str) : List Str :=
  commaLoop str.length str result

/-- `comma(value)`.  The negation `value = -value` is Go's wrapping negation. -/
def comma (value : Int) : Str :=
  let sign : Str := if value < 0 then ['-'] else []
  let value := if value < 0 then wrapInt (-value) else value
  let str := fmtD value
  if str.length ≤ 3 then sign ++ str
  else sign ++ List.intercalate [','] (commaGroups str [])

/-- The line printed after batch number `n`:
`fmt.Printf("Batch no.%d completed.\n", x+1)` with `n = x+1`. -/
def batchLine (n : Int) : Str :=
  "Batch no.".toList ++ fmtD n ++ " completed.\n".toList

/-- The final line:
`fmt.Printf("Successfully written %s rows to Cassandra table.\n", comma(v))`. -/
def totalLine (v : Int) : Str :=
  "Successfully written ".toList ++ comma v ++ " rows to Cassandra table.\n".toList

/-! ## The config file (main.go 16-57, 106) -/

/-- The struct `Config`. -/
structure Config where
  Host : Str
  Port : Str
  Keyspace : Str
deriving DecidableEq, Repr

/-- White space as `unicode.IsSpace` defines it, which is what `strings.TrimSpace` removes:
U+0009..U+000D, U+0020, U+0085, U+00A0, U+1680, U+2000..U+200A, U+2028, U+2029, U+202F,
U+205F, U+3000. -/
def isSpace (c : Char) : Bool :=
  let n := c.toNat
  (9 ≤ n && n ≤ 13) || n == 32 || n == 0x85 || n == 0xA0 || n == 0x1680 ||
  (0x2000 ≤ n && n ≤ 0x200A) || n == 0x2028 || n == 0x2029 || n == 0x202F ||
  n == 0x205F || n == 0x3000

/-- `strings.TrimSpace`: leading and trailing white space removed. -/
def trimSpace (s : Str) : Str := (s.dropWhile isSpace).rdropWhile isSpace

/-- The text before the first colon and the text after it, when there is a colon. -/
def cutColon : Str → Option (Str × Str)
  | [] => none
  | c :: cs =>
    if c = ':' then some ([], cs)
    else match cutColon cs with
      | none => none
      | some (a, b) => some (c :: a, b)

/-- `strings.SplitN(line, ":", 2)`: at most two parts, split at the first colon. -/
def splitN2 (line : Str) : List Str :=
  match cutColon line with
  | none => [line]
  | some (a, b) => [a, b]

/-- `parseLine` (main.go 22-30). -/
def parseLine (line : Str) : Str × Str :=
  match splitN2 line with
  | [a, b] => (trimSpace a, trimSpace b)
  | _ => ([], [])

/-- Body of the scanning loop of `readConfig` (main.go 42-50): the `switch key`. -/
def applyLine (cfg : Config) (line : Str) : Config :=
  let kv := parseLine line
  if kv.1 = "host".toList then { cfg with Host := kv.2 }
  else if kv.1 = "port".toList then { cfg with Port := kv.2 }
  else if kv.1 = "keyspace".toList then { cfg with Keyspace := kv.2 }
  else cfg

/-- The zero value `var cfg Config`. -/
def Config.zero : Config := { Host := [], Port := [], Keyspace := [] }

/-- The scanning loop of `readConfig` on the lines that `scanner.Text()` returns. -/
def readConfigLines (lines : List Str) : Config := lines.foldl applyLine Config.zero

/-- `dropCR` of package `bufio`: a trailing carriage return is removed. -/
def dropCR (line : Str) : Str :=
  if line.getLast? = some '\r' then line.dropLast else line

/-- `len(s)` of a Go string: the number of bytes of its UTF-8 encoding. -/
def byteLen (s : Str) : Nat := (s.map Char.utf8Size).sum

/-- `bufio.MaxScanTokenSize`, the size to which the buffer of a scanner made by
`bufio.NewScanner` may grow: `64 * 1024`. -/
def maxScanTokenSize : Nat := 64 * 1024

/-- The errors `readConfig` returns: that of `os.Open`, with its message, and
`bufio.ErrTooLong` of the scanner. -/
inductive Error where
  | openFailed (msg : Str)
  | tooLong
deriving DecidableEq, Repr

/-- A text cut at its newlines, as the split function `bufio.ScanLines` cuts it, before
`dropCR`: `cur` holds, in reverse, the bytes of the line being read.  Lines end at a
newline; a last line without newline is a line too unless it is empty. -/
def splitLinesAux : Str → Str → List Str
  | cur, [] => if cur = [] then [] else [cur.reverse]
  | cur, c :: cs =>
    if c = '\n' then cur.reverse :: splitLinesAux [] cs
    else splitLinesAux (c :: cur) cs

/-- The lines of a text, newlines removed. -/
def splitLines (content : Str) : List Str := splitLinesAux [] content

/-- The loop `for scanner.Scan()` over the lines of the file: the texts `scanner.Text()`
returns, in order, and `scanner.Err()` after the loop.  A line, without its newline, must
be shorter than `maxScanTokenSize` bytes to be found in the full-grown buffer; at a longer
line `Scan` sets `bufio.ErrTooLong` and returns false, and the rest of the file is never
read. -/
def scanTokens : List Str → List Str × Option Error
  | [] => ([], none)
  | l :: ls =>
    if maxScanTokenSize ≤ byteLen l then ([], some .tooLong)
    else (dropCR l :: (scanTokens ls).1, (scanTokens ls).2)

/-- The scanner `bufio.NewScanner(file)` (main.go 40) run over a file of the given
content. -/
def scan (content : Str) : List Str × Option Error := scanTokens (splitLines content)

/-- The file `readConfig` is asked to read: `os.Open` fails with a message, or the file is
there and holds `content`, which the reads deliver up to its end. -/
inductive File where
  | missing (msg : Str)
  | present (content : Str)
deriving DecidableEq, Repr

/-- `readConfig` (main.go 32-57): the config read and the error returned with it.  Both
are determined by the file: the loop body runs on the lines scanned before the scanner
stops, and the error is the scanner's. -/
def readConfig : File → Config × Option Error
  | .missing msg => (Config.zero, some (.openFailed msg))
  | .present content => (readConfigLines (scan content).1, (scan content).2)

/-- The text of the file whose lines are `lines`, each ended by a newline. -/
def unlines (lines : List Str) : Str := lines.flatMap (fun l => l ++ ['\n'])

/-- The text `InitCassandraConfig` writes (main.go 106):
`fmt.Sprintf("host: %s\nport: %s\nkeyspace: %s\n", Host, Port, Keyspace)`. -/
def initContent (h p k : Str) : Str :=
  "host: ".toList ++ h ++ "\nport: ".toList ++ p ++ "\nkeyspace: ".toList ++ k ++ ['\n']

/-- The keys `readConfig` knows. -/
def configKeys : List Str := ["host".toList, "port".toList, "keyspace".toList]

/-- A line that counts for the config, in the words of the specification: it contains a
colon, and its text before the first colon, trimmed of surrounding white space, is exactly
`host`, `port` or `keyspace`. -/
def isConfigLine (line : Str) : Bool :=
  decide (':' ∈ line) && decide (trimSpace (line.takeWhile (fun c => c != ':')) ∈ configKeys)

/-! ## The run command: launcher and write tasks -/

/-- The three integer flags of the run command:
`cCtx.Int("batch")`, `cCtx.Int("size")`, `cCtx.Int("concurrency")`. -/
structure Params where
  batch : Int
  size : Int
  concurrency : Int
deriving DecidableEq, Repr

/-- Program counter of the launcher (the `Action` of the run command, lines 214-230).
Each constructor names the statement that is executed next. -/
inductive LPc where
  /-- `semaphore := make(chan struct{}, cCtx.Int("concurrency"))` -/
  | mkChan
  /-- the test `x < cCtx.Int("batch")` of the outer loop -/
  | loopX
  /-- the test `y < cCtx.Int("size")` of the inner loop -/
  | loopY
  /-- `wg.Add(1)` -/
  | add
  /-- `semaphore <- struct{}{}` -/
  | send
  /-- `go func(y int) { ... }(y)` followed by `y++` -/
  | spawn
  /-- `wg.Wait()` -/
  | wait
  /-- `fmt.Printf("Batch no.%d completed.\n", x+1)` followed by `x++` -/
  | printBatch
  /-- `fmt.Printf("Successfully written %s rows ...", comma(batch*size))` -/
  | printTotal
  /-- `return nil` has been executed -/
  | done
deriving DecidableEq, Repr

/-- Program counter of one goroutine `func(y int) { insertData(session, y, &wg); <-semaphore }`. -/
inductive TPc where
  /-- inside `insertData`, the call `session.Query(...).Exec()` has not returned yet -/
  | exec
  /-- `Exec` returned an error: the task prints it and is about to call `log.Fatal` -/
  | fatal
  /-- `Exec` returned nil: the deferred `wg.Done()` is about to run -/
  | deferDone
  /-- `insertData` has returned: `<-semaphore` is about to run -/
  | recv
  /-- the goroutine has finished -/
  | exited
deriving DecidableEq, Repr

/-- One goroutine started by the launcher: the batch `x` and index `y` it was started with,
and where it stands. -/
structure Task where
  batch : Nat
  idx : Nat
  pc : TPc
deriving DecidableEq, Repr

/-- What an outside observer (a test double of the sink, the terminal) can see, in the order
in which it happens. -/
inductive Event where
  /-- the `go` statement started the goroutine of batch `b`, index `y`:
  `insertData` is invoked -/
  | launch (b y : Nat)
  /-- the sink write of task `(b, y)` returned without error -/
  | wrote (b y : Nat)
  /-- the sink write of task `(b, y)` returned an error -/
  | failed (b y : Nat)
  /-- task `(b, y)` returned from `insertData` (its deferred `wg.Done()` ran) -/
  | ret (b y : Nat)
  /-- the line `Batch no.<n> completed.` was printed -/
  | batchDone (n : Nat)
  /-- the line `Successfully written <comma v> rows to Cassandra table.` was printed -/
  | total (v : Int)
deriving DecidableEq, Repr

/-- State of the process while the run command executes. -/
structure State where
  /-- next statement of the launcher -/
  pc : LPc
  /-- loop variable of the outer loop -/
  x : Nat
  /-- loop variable of the inner loop -/
  y : Nat
  /-- counter of the `sync.WaitGroup` -/
  wg : Int
  /-- number of elements buffered in the channel `semaphore` (permits held) -/
  sem : Nat
  /-- the goroutines started so far, in the order of their `go` statements -/
  tasks : List Task
  /-- the process has terminated abnormally (`os.Exit(1)` of `log.Fatal`, or a panic) -/
  halted : Bool
  /-- observable history, oldest event first -/
  log : List Event
deriving DecidableEq, Repr

/-- The state in which the launcher is about to create the semaphore channel. -/
def init : State :=
  { pc := .mkChan, x := 0, y := 0, wg := 0, sem := 0, tasks := [], halted := false, log := [] }

/-- The scheduler's choice at one step. -/
inductive Action where
  /-- the launcher executes its next statement -/
  | launcher
  /-- goroutine number `i` (in spawn order) executes its next statement -/
  | task (i : Nat)
  /-- on an unbuffered channel (capacity 0) the launcher's send and the receive of
  goroutine `i` happen together -/
  | handoff (i : Nat)
deriving DecidableEq, Repr

/-- One statement of the launcher.  `none` means the launcher is blocked (or has returned).

* `make(chan struct{}, n)` panics for `n < 0`.
* a send on a buffered channel blocks while the buffer is full; with capacity 0 it never
  completes on its own (see `handoffStep`).
* `wg.Wait()` blocks until the counter is zero. -/
def launcherStep (p : Params) (s : State) : Option State :=
  match s.pc with
  | .mkChan =>
    if p.concurrency < 0 then some { s with halted := true }
    else some { s with pc := .loopX, x := 0 }
  | .loopX =>
    if (s.x : Int) < p.batch then some { s with pc := .loopY, y := 0 }
    else some { s with pc := .printTotal }
  | .loopY =>
    if (s.y : Int) < p.size then some { s with pc := .add }
    else some { s with pc := .wait }
  | .add => some { s with pc := .send, wg := s.wg + 1 }
  | .send =>
    if (s.sem : Int) < p.concurrency then some { s with pc := .spawn, sem := s.sem + 1 }
    else none
  | .spawn =>
    some { s with
      pc := .loopY, y := s.y + 1,
      tasks := s.tasks ++ [{ batch := s.x, idx := s.y, pc := .exec }],
      log := s.log ++ [.launch s.x s.y] }
  | .wait => if s.wg = 0 then some { s with pc := .printBatch } else none
  | .printBatch =>
    some { s with pc := .loopX, x := s.x + 1, log := s.log ++ [.batchDone (s.x + 1)] }
  | .printTotal =>
    some { s with pc := .done, log := s.log ++ [.total (wrapInt (p.batch * p.size))] }
  | .done => none

/-- One statement of goroutine `i`.  `ok b y` tells whether the sink accepts the write of
task `(b, y)`.  `none` means the goroutine is blocked, finished, or does not exist.

* a failed `Exec` leads to `log.Fatal`, i.e. `os.Exit(1)`: deferred calls do not run.
* `wg.Done()` panics when the counter would become negative.
* a receive on a buffered channel blocks while the buffer is empty. -/
def taskStep (ok : Nat → Nat → Bool) (s : State) (i : Nat) : Option State :=
  match s.tasks[i]? with
  | none => none
  | some t =>
    match t.pc with
    | .exec =>
      if ok t.batch t.idx then
        some { s with
          tasks := s.tasks.set i { t with pc := .deferDone },
          log := s.log ++ [.wrote t.batch t.idx] }
      else
        some { s with
          tasks := s.tasks.set i { t with pc := .fatal },
          log := s.log ++ [.failed t.batch t.idx] }
    | .fatal => some { s with halted := true }
    | .deferDone =>
      if s.wg - 1 < 0 then some { s with halted := true }
      else
        some { s with
          wg := s.wg - 1,
          tasks := s.tasks.set i { t with pc := .recv },
          log := s.log ++ [.ret t.batch t.idx] }
    | .recv =>
      if 0 < s.sem then
        some { s with sem := s.sem - 1, tasks := s.tasks.set i { t with pc := .exited } }
      else none
    | .exited => none

/-- Rendezvous on an unbuffered channel: the launcher is at its send, goroutine `i` at its
receive, and both complete at once.  Only possible when the capacity is 0. -/
def handoffStep (p : Params) (s : State) (i : Nat) : Option State :=
  if p.concurrency = 0 ∧ s.pc = .send then
    match s.tasks[i]? with
    | none => none
    | some t =>
      if t.pc = .recv then
        some { s with pc := .spawn, tasks := s.tasks.set i { t with pc := .exited } }
      else none
  else none

/-- One step of the process under the scheduler's choice `a`.  A terminated process does not
move. -/
def step (p : Params) (ok : Nat → Nat → Bool) (s : State) (a : Action) : Option State :=
  if s.halted then none
  else
    match a with
    | .launcher => launcherStep p s
    | .task i => taskStep ok s i
    | .handoff i => handoffStep p s i

/-- Execution of a whole schedule; `none` when the schedule asks a blocked thread to move. -/
def run (p : Params) (ok : Nat → Nat → Bool) : List Action → State → Option State
  | [], s => some s
  | a :: as, s =>
    match step p ok s a with
    | none => none
    | some s' => run p ok as s'

/-- The states the process can be in, under any scheduler. -/
inductive Reachable (p : Params) (ok : Nat → Nat → Bool) : State → Prop where
  | init : Reachable p ok init
  | step {s s' : State} (a : Action) :
      Reachable p ok s → step p ok s a = some s' → Reachable p ok s'

/-- A sink that accepts every write. -/
def okSink : Nat → Nat → Bool := fun _ _ => true

/-! ### Observations on tasks and events -/

/-- The task has been started and has not yet returned from `insertData`
(its write is in flight). -/
def TPc.inFlight : TPc → Bool
  | .exec | .fatal | .deferDone => true
  | _ => false

/-- The goroutine has not yet executed `<-semaphore`: it holds a permit. -/
def TPc.holds : TPc → Bool
  | .exited => false
  | _ => true

/-- The call of `insertData` has returned. -/
def TPc.returned : TPc → Bool
  | .recv | .exited => true
  | _ => false

/-- The sink write of the task returned without error. -/
def TPc.written : TPc → Bool
  | .deferDone | .recv | .exited => true
  | _ => false

/-- Batch and index of a task. -/
def Task.key (t : Task) : Nat × Nat := (t.batch, t.idx)

/-- The launcher is inside the body of the outer loop. -/
def LPc.inBatch : LPc → Bool
  | .loopY | .add | .send | .spawn | .wait | .printBatch => true
  | _ => false

/-- Number of tasks of the current batch that have been started: the inner loop variable
while the launcher is inside the outer loop body, 0 otherwise. -/
def State.ycur (s : State) : Nat := if s.pc.inBatch then s.y else 0

/-- Key of a `launch` event. -/
def Event.launchKey : Event → Option (Nat × Nat)
  | .launch b y => some (b, y)
  | _ => none

/-- Number carried by a batch-completion line. -/
def Event.sigNum : Event → Option Nat
  | .batchDone n => some n
  | _ => none

/-- Value carried by the final line. -/
def Event.totalVal : Event → Option Int
  | .total v => some v
  | _ => none

/-- The event is the return of a sink write, successful or not. -/
def Event.isSinkCall : Event → Bool
  | .wrote _ _ | .failed _ _ => true
  | _ => false

/-- The event is a successful sink write. -/
def Event.isWrote : Event → Bool
  | .wrote _ _ => true
  | _ => false

/-- The line the launcher prints at an event, if any. -/
def Event.line : Event → Option Str
  | .batchDone n => some (batchLine n)
  | .total v => some (totalLine v)
  | _ => none

/-- Number of tasks whose write is in flight. -/
def State.inFlight (s : State) : Nat := s.tasks.countP (fun t => t.pc.inFlight)

/-- Number of permits held by goroutines. -/
def State.holders (s : State) : Nat := s.tasks.countP (fun t => t.pc.holds)

/-- The goroutines started so far, as `(batch, index)` pairs in launch order, read off the
observable history. -/
def State.launches (s : State) : List (Nat × Nat) := s.log.filterMap Event.launchKey

/-- The numbers of the batch-completion lines printed so far, in order. -/
def State.signals (s : State) : List Nat := s.log.filterMap Event.sigNum

/-- The values of the final lines printed so far. -/
def State.totals (s : State) : List Int := s.log.filterMap Event.totalVal

/-- The lines the launcher has printed so far, in order. -/
def State.printed (s : State) : List Str := s.log.filterMap Event.line

/-- The batch-completion signals as the terminal shows them: the batch lines printed so
far. -/
def State.signalLines (s : State) : List Str := s.signals.map (fun n => batchLine n)

/-- Number of sink writes that have returned so far. -/
def State.sinkCalls (s : State) : Nat := s.log.countP Event.isSinkCall

/-! ## The control invariant -/

/-- Facts about counters, loop variables and tasks that hold in every reachable state,
for every choice of flags and every sink. -/
structure InvA (p : Params) (ok : Nat → Nat → Bool) (s : State) : Prop where
  sem_eq : s.sem = s.holders + (if s.pc = .spawn then 1 else 0)
  sem_le : s.sem ≤ p.concurrency.toNat
  wg_eq : s.wg = (s.inFlight : Int) + (if s.pc = .send ∨ s.pc = .spawn then 1 else 0)
  x_le : s.x ≤ p.batch.toNat
  x_lt : s.pc.inBatch = true → s.x < p.batch.toNat
  x_end : s.pc = .printTotal ∨ s.pc = .done → s.x = p.batch.toNat
  y_le : s.ycur ≤ p.size.toNat
  y_lt : s.pc = .add ∨ s.pc = .send ∨ s.pc = .spawn → s.y < p.size.toNat
  y_end : s.pc = .wait ∨ s.pc = .printBatch → s.y = p.size.toNat
  start : s.pc = .mkChan → s.x = 0 ∧ s.tasks = [] ∧ s.log = []
  keys : ∀ b y, (b, y) ∈ s.tasks.map Task.key ↔
    (b < s.x ∧ y < p.size.toNat) ∨ (b = s.x ∧ y < s.ycur)
  keys_nodup : (s.tasks.map Task.key).Nodup
  len : s.tasks.length = s.x * p.size.toNat + s.ycur
  cur : s.tasks.countP (fun t => t.batch == s.x) = s.ycur
  returned : ∀ t ∈ s.tasks, t.batch < s.x ∨ s.pc = .printBatch → t.pc.returned = true
  sink_ok : ∀ t ∈ s.tasks, t.pc.written = true → ok t.batch t.idx = true
  sink_bad : ∀ t ∈ s.tasks, t.pc = .fatal → ok t.batch t.idx = false
  halt : s.halted = true →
    (s.pc = .mkChan ∧ p.concurrency < 0) ∨ ∃ t ∈ s.tasks, t.pc = .fatal

/-! ## The history invariant -/

/-- How the observable history relates to the tasks and to the launcher's position. -/
structure InvL (p : Params) (ok : Nat → Nat → Bool) (s : State) : Prop where
  launch : s.launches = s.tasks.map Task.key
  wrote_mem : ∀ t ∈ s.tasks, t.pc.written = true → Event.wrote t.batch t.idx ∈ s.log
  wrote_key : ∀ b y, Event.wrote b y ∈ s.log → (b, y) ∈ s.tasks.map Task.key ∧ ok b y = true
  failed_key : ∀ b y, Event.failed b y ∈ s.log → (b, y) ∈ s.tasks.map Task.key ∧ ok b y = false
  ret_mem : ∀ t ∈ s.tasks, t.pc.returned = true → Event.ret t.batch t.idx ∈ s.log
  ret_key : ∀ b y, Event.ret b y ∈ s.log → (b, y) ∈ s.tasks.map Task.key
  calls : s.sinkCalls = s.tasks.countP (fun t => t.pc != .exec)
  sig : s.signals = (List.range s.x).map (· + 1)
  total : s.totals = if s.pc = .done then [wrapInt (p.batch * p.size)] else []
  last : s.pc = .done → s.log.getLast? = some (.total (wrapInt (p.batch * p.size)))
  printed : s.printed = (List.range s.x).map (fun i => batchLine ((i + 1 : Nat) : Int)) ++
    (if s.pc = .done then [totalLine (wrapInt (p.batch * p.size))] else [])

/-! ## Termination measure -/

/-- Number of steps a goroutine can still take. -/
def TPc.cost : TPc → Nat
  | .exec => 3
  | .fatal => 1
  | .deferDone => 2
  | .recv => 1
  | .exited => 0

/-- Steps the goroutines started so far can still take. -/
def taskCost (ts : List Task) : Nat := (ts.map (fun t => t.pc.cost)).sum

/-- Steps that remain in the current batch and the following ones, counting for every task
not yet started the four launcher statements that start it and its own three. -/
def launcherCost (p : Params) (s : State) : Nat :=
  let nB := p.batch.toNat
  let nS := p.size.toNat
  let k := 7 * nS + 4
  match s.pc with
  | .mkChan => nB * k + 3
  | .loopX => (nB - s.x) * k + 2
  | .loopY => (nB - (s.x + 1)) * k + 2 + 7 * (nS - s.y) + 3
  | .add => (nB - (s.x + 1)) * k + 2 + 7 * (nS - s.y) + 2
  | .send => (nB - (s.x + 1)) * k + 2 + 7 * (nS - s.y) + 1
  | .spawn => (nB - (s.x + 1)) * k + 2 + 7 * (nS - s.y)
  | .wait => (nB - (s.x + 1)) * k + 2 + 2
  | .printBatch => (nB - (s.x + 1)) * k + 2 + 1
  | .printTotal => 1
  | .done => 0

/-- A bound on the number of steps the process can still take. -/
def measure (p : Params) (s : State) : Nat :=
  if s.halted then 0 else 1 + launcherCost p s + taskCost s.tasks

/-! ## Schedules used in examples -/

/-- Schedule in which the launcher moves `n` times in a row. -/
def launcherMoves (n : Nat) : List Action := List.replicate n .launcher

/-- Schedule in which goroutine `i` makes its three moves in a row: the write, the
deferred `wg.Done()`, the receive from the semaphore. -/
def taskRuns (i : Nat) : List Action := [.task i, .task i, .task i]

/-- A sink that rejects the write of task `(b0, y0)` and accepts every other one. -/
def failAt (b0 y0 : Nat) : Nat → Nat → Bool := fun b y => !(b == b0 && y == y0)

/-- One batch of four tasks under concurrency 2, the first of its goroutines being number
`k`: two tasks are started, each time a goroutine has finished the next task is started,
and after the last two goroutines have finished the launcher passes the barrier and prints
the batch line. -/
def demoBatch (k : Nat) : List Action :=
  launcherMoves 9 ++ taskRuns k ++ launcherMoves 4 ++ taskRuns (k + 1) ++ launcherMoves 4 ++
    taskRuns (k + 2) ++ taskRuns (k + 3) ++ launcherMoves 3

/-- A complete schedule for `B = 3, S = 4, C = 2`. -/
def demoSchedule : List Action :=
  launcherMoves 1 ++ demoBatch 0 ++ demoBatch 4 ++ demoBatch 8 ++ launcherMoves 2

/-! # Theorems -/

/-! ## List lemmas -/

theorem countP_set_of_getElem? {α : Type} (q : α → Bool) :
    ∀ (l : List α) (i : Nat) (t u : α), l[i]? = some t →
      (l.set i u).countP q + (if q t then 1 else 0) = l.countP q + (if q u then 1 else 0)
  | [], i, t, u, h => by simp at h
  | a :: l, 0, t, u, h => by
    simp at h
    subst h
    simp [List.countP_cons]
    omega
  | a :: l, i + 1, t, u, h => by
    simp at h
    have := countP_set_of_getElem? q l i t u h
    simp [List.countP_cons]
    omega

theorem map_set_of_getElem? {α β : Type} (f : α → β) :
    ∀ (l : List α) (i : Nat) (t u : α), l[i]? = some t → f u = f t →
      (l.set i u).map f = l.map f
  | [], i, t, u, h, _ => by simp at h
  | a :: l, 0, t, u, h, hf => by
    simp at h
    subst h
    simp [hf]
  | a :: l, i + 1, t, u, h, hf => by
    simp at h
    simp [map_set_of_getElem? f l i t u h hf]

theorem mem_of_getElem? {α : Type} {l : List α} {i : Nat} {t : α} (h : l[i]? = some t) :
    t ∈ l := List.mem_iff_getElem?.2 ⟨i, h⟩

theorem length_set_eq {α : Type} (l : List α) (i : Nat) (u : α) :
    (l.set i u).length = l.length := by simp

/-! ## The control invariant holds in every reachable state -/

theorem invA_init (p : Params) (ok : Nat → Nat → Bool) : InvA p ok init := by
  constructor <;> simp [init, State.holders, State.inFlight, State.ycur, LPc.inBatch]

theorem countP_eq_zero_imp {α : Type} {q : α → Bool} {l : List α} (h : l.countP q = 0) :
    ∀ a ∈ l, q a = false := by
  intro a ha
  by_contra hq
  have : 0 < l.countP q := List.countP_pos_iff.2 ⟨a, ha, by simpa using hq⟩
  omega

theorem TPc.returned_of_not_inFlight {c : TPc} (h : c.inFlight = false) :
    c.returned = true := by
  cases c <;> simp_all [TPc.inFlight, TPc.returned]

theorem invA_launcher {p : Params} {ok : Nat → Nat → Bool} {s s' : State}
    (h : InvA p ok s) (hh : s.halted = false) (hs : launcherStep p s = some s') :
    InvA p ok s' := by
  obtain ⟨h1, h2, h3, h4, h5, h6, h7, h8, h9, h10, h11, h12, h13, h14, h15, h16, h17, h18⟩ := h
  rcases s with ⟨pc, x, y, wg, sem, tasks, halted, log⟩
  simp only at hh
  subst hh
  have hb : ∀ t ∈ tasks, t.batch ≤ x := by
    intro t ht
    have := (h11 t.batch t.idx).1 (List.mem_map_of_mem Task.key ht)
    dsimp only at this
    omega
  cases pc <;> simp only [launcherStep] at hs <;>
    simp [State.holders, State.inFlight, State.ycur, LPc.inBatch] at h1 h2 h3 h4 h5 h6 h7 h8 h9 h10 h11 h12 h13 h14 h15 h16 h17 h18
  all_goals try split at hs
  all_goals try simp only [Option.some.injEq, reduceCtorEq] at hs
  all_goals try subst hs
  all_goals constructor <;> simp [State.holders, State.inFlight, State.ycur, LPc.inBatch]
  all_goals try assumption
  all_goals try omega
  case mkChan.isFalse.keys => simp [h10.2.1]
  case mkChan.isFalse.len => exact h10.2.1
  case mkChan.isFalse.cur => simp [h10.2.1]
  case spawn.keys =>
    intro b y'
    have := h11 b y'
    constructor
    · rintro (h | h)
      · have := this.1 h; omega
      · simp [Task.key] at h; omega
    · intro h
      by_cases hy : b = x ∧ y' = y
      · right; simp [Task.key, hy.1, hy.2]
      · left; apply this.2; omega
  case spawn.keys_nodup =>
    rw [List.nodup_append]
    refine ⟨h12, by simp, ?_⟩
    intro k hk hk'
    simp only [List.mem_singleton, Task.key] at hk'
    subst hk'
    obtain ⟨a, ha, hka⟩ := List.mem_map.1 hk
    have := (h11 x y).1 ⟨a, ha, hka⟩
    omega
  case spawn.returned =>
    rintro t (ht | rfl) hlt
    · exact h15 t ht hlt
    · simp at hlt
  case spawn.sink_ok =>
    rintro t (ht | rfl) hw
    · exact h16 t ht hw
    · simp [TPc.written] at hw
  case spawn.sink_bad =>
    rintro t (ht | rfl) hw
    · exact h17 t ht hw
    · simp at hw
  case wait.isTrue.returned =>
    rename_i hwg
    subst hwg
    intro t ht
    have h0 : tasks.countP (fun t => t.pc.inFlight) = 0 := by omega
    exact TPc.returned_of_not_inFlight (countP_eq_zero_imp h0 t ht)
  case printBatch.keys =>
    intro b y'
    have := h11 b y'
    constructor
    · intro h; have := this.1 h; omega
    · intro h; apply this.2; omega
  case printBatch.len => rw [h13, h9, Nat.succ_mul]
  case printBatch.cur =>
    intro a ha
    have := hb a ha
    omega
  case printBatch.returned =>
    intro t ht _
    exact h15 t ht

/-- Changing the program counter of one goroutine keeps the control invariant, provided
the permit and wait-group counters are adjusted accordingly. -/
theorem invA_update {p : Params} {ok : Nat → Nat → Bool} {s : State} (h : InvA p ok s)
    (hh : s.halted = false) {i : Nat} {t : Task} (ht : s.tasks[i]? = some t) (c : TPc)
    (sem' : Nat) (wg' : Int) (log' : List Event)
    (hsem : sem' + (if t.pc.holds then 1 else 0) = s.sem + (if c.holds then 1 else 0))
    (hwg : wg' + (if t.pc.inFlight then 1 else 0) = s.wg + (if c.inFlight then 1 else 0))
    (hsl : sem' ≤ s.sem)
    (hret : t.pc.returned = true → c.returned = true)
    (hok : c.written = true → ok t.batch t.idx = true)
    (hbad : c = .fatal → ok t.batch t.idx = false) :
    InvA p ok { s with sem := sem', wg := wg', tasks := s.tasks.set i { t with pc := c },
                       log := log' } := by
  obtain ⟨h1, h2, h3, h4, h5, h6, h7, h8, h9, h10, h11, h12, h13, h14, h15, h16, h17, h18⟩ := h
  have hH := countP_set_of_getElem? (fun t => t.pc.holds) s.tasks i t { t with pc := c } ht
  have hF := countP_set_of_getElem? (fun t => t.pc.inFlight) s.tasks i t { t with pc := c } ht
  have hC := countP_set_of_getElem? (fun t => t.batch == s.x) s.tasks i t { t with pc := c } ht
  have hK := map_set_of_getElem? Task.key s.tasks i t { t with pc := c } ht rfl
  have hmem : ∀ u ∈ s.tasks.set i { t with pc := c }, u ∈ s.tasks ∨ u = { t with pc := c } :=
    fun u hu => List.mem_or_eq_of_mem_set hu
  have htm : t ∈ s.tasks := mem_of_getElem? ht
  have hne : s.tasks ≠ [] := List.ne_nil_of_mem htm
  rcases s with ⟨pc, x, y, wg, sem, tasks, halted, log⟩
  simp only at hh hH hF hC hK hmem htm hne hsem hwg hsl ht
  beta_reduce at hH hF hC
  simp only [State.holders, State.inFlight, State.ycur] at h1 h2 h3 h4 h5 h6 h7 h8 h9 h10 h11 h12 h13 h14 h15 h16 h17 h18
  subst hh
  constructor <;> simp only [State.holders, State.inFlight, State.ycur, hK, List.length_set]
  all_goals try assumption
  · omega
  · omega
  · cases hq1 : t.pc.inFlight <;> cases hq2 : c.inFlight <;>
      simp only [hq1, hq2, if_true, if_false, Bool.false_eq_true] at hF hwg <;> omega
  · intro hpc
    exact absurd (h10 hpc).2.1 hne
  · omega
  · intro u hu hc
    rcases hmem u hu with hu | rfl
    · exact h15 u hu hc
    · exact hret (h15 t htm hc)
  · intro u hu hc
    rcases hmem u hu with hu | rfl
    · exact h16 u hu hc
    · exact hok hc
  · intro u hu hc
    rcases hmem u hu with hu | rfl
    · exact h17 u hu hc
    · exact hbad hc
  · simp

theorem invA_halt {p : Params} {ok : Nat → Nat → Bool} {s : State} (h : InvA p ok s)
    (hf : (s.pc = .mkChan ∧ p.concurrency < 0) ∨ ∃ t ∈ s.tasks, t.pc = .fatal) :
    InvA p ok { s with halted := true } := by
  obtain ⟨h1, h2, h3, h4, h5, h6, h7, h8, h9, h10, h11, h12, h13, h14, h15, h16, h17, h18⟩ := h
  exact ⟨h1, h2, h3, h4, h5, h6, h7, h8, h9, h10, h11, h12, h13, h14, h15, h16, h17,
    fun _ => hf⟩

theorem countP_pos_of_getElem? {α : Type} {q : α → Bool} {l : List α} {i : Nat} {t : α}
    (ht : l[i]? = some t) (hq : q t = true) : 0 < l.countP q :=
  List.countP_pos_iff.2 ⟨t, mem_of_getElem? ht, hq⟩

theorem invA_task {p : Params} {ok : Nat → Nat → Bool} {s s' : State} {i : Nat}
    (h : InvA p ok s) (hh : s.halted = false) (hs : taskStep ok s i = some s') :
    InvA p ok s' := by
  unfold taskStep at hs
  split at hs
  · simp at hs
  rename_i t ht
  rcases t with ⟨b, y, c⟩
  cases c <;> simp only at hs
  · -- exec
    split at hs <;> (simp only [Option.some.injEq] at hs; subst hs)
    · rename_i hok
      have := invA_update h hh ht .deferDone s.sem s.wg (s.log ++ [.wrote b y])
        (by simp [TPc.holds]) (by simp [TPc.inFlight]) (le_refl _) (by simp [TPc.returned])
        (fun _ => hok) (by simp)
      exact this
    · rename_i hok
      have := invA_update h hh ht .fatal s.sem s.wg (s.log ++ [.failed b y])
        (by simp [TPc.holds]) (by simp [TPc.inFlight]) (le_refl _) (by simp [TPc.returned])
        (by simp [TPc.written]) (fun _ => by simpa using hok)
      exact this
  · -- fatal
    simp only [Option.some.injEq] at hs; subst hs
    exact invA_halt h (Or.inr ⟨_, mem_of_getElem? ht, rfl⟩)
  · -- deferDone
    have hpos : 0 < s.inFlight := countP_pos_of_getElem? ht (by simp [TPc.inFlight])
    have hwg := h.wg_eq
    split at hs
    · split at hwg <;> omega
    · simp only [Option.some.injEq] at hs; subst hs
      have := invA_update h hh ht .recv s.sem (s.wg - 1) (s.log ++ [.ret b y])
        (by simp [TPc.holds]) (by simp [TPc.inFlight]) (le_refl _) (by simp [TPc.returned])
        (fun _ => h.sink_ok _ (mem_of_getElem? ht) (by simp [TPc.written])) (by simp)
      exact this
  · -- recv
    split at hs
    · simp only [Option.some.injEq] at hs; subst hs
      have := invA_update h hh ht .exited (s.sem - 1) s.wg s.log
        (by simp [TPc.holds]; omega) (by simp [TPc.inFlight]) (by omega)
        (by simp [TPc.returned])
        (fun _ => h.sink_ok _ (mem_of_getElem? ht) (by simp [TPc.written])) (by simp)
      exact this
    · simp at hs
  · simp at hs

theorem invA_handoff {p : Params} {ok : Nat → Nat → Bool} {s s' : State} {i : Nat}
    (h : InvA p ok s) (hs : handoffStep p s i = some s') : InvA p ok s' := by
  unfold handoffStep at hs
  split at hs
  · rename_i hc
    split at hs
    · simp at hs
    · rename_i t ht
      split at hs
      · rename_i hr
        have hpos : 0 < s.holders := countP_pos_of_getElem? ht (by simp [hr, TPc.holds])
        have h1 := h.sem_eq
        have h2 := h.sem_le
        rw [hc.1] at h2
        simp at h2
        omega
      · simp at hs
  · simp at hs

theorem invA_step {p : Params} {ok : Nat → Nat → Bool} {s s' : State} {a : Action}
    (h : InvA p ok s) (hs : step p ok s a = some s') : InvA p ok s' := by
  unfold step at hs
  split at hs
  · simp at hs
  · rename_i hh
    have hh : s.halted = false := by simpa using hh
    cases a
    · exact invA_launcher h hh hs
    · exact invA_task h hh hs
    · exact invA_handoff h hs

theorem invA_of_reachable {p : Params} {ok : Nat → Nat → Bool} {s : State}
    (h : Reachable p ok s) : InvA p ok s := by
  induction h with
  | init => exact invA_init p ok
  | step a _ hs ih => exact invA_step ih hs

/-! ## The history invariant holds in every reachable state -/

theorem invL_init (p : Params) (ok : Nat → Nat → Bool) : InvL p ok init := by
  constructor <;> simp [init, State.launches, State.signals, State.totals, State.sinkCalls, State.printed]

theorem invL_launcher {p : Params} {ok : Nat → Nat → Bool} {s s' : State}
    (h : InvL p ok s) (hA : InvA p ok s) (hs : launcherStep p s = some s') :
    InvL p ok s' := by
  obtain ⟨h1, h2, h3, h4, h5, h6, h7, h8, h9, h10, h11⟩ := h
  have hst := hA.start
  rcases s with ⟨pc, x, y, wg, sem, tasks, halted, log⟩
  cases pc <;> simp only [launcherStep] at hs <;>
    simp [State.launches, State.signals, State.totals, State.sinkCalls, State.printed] at h1 h2 h3 h4 h5 h6 h7 h8 h9 h10 h11 hst
  all_goals try split at hs
  all_goals try simp only [Option.some.injEq, reduceCtorEq] at hs
  all_goals try subst hs
  all_goals constructor <;> simp [State.launches, State.signals, State.totals, State.sinkCalls,
    State.printed, Event.launchKey, Event.sigNum, Event.totalVal, Event.isSinkCall, Event.line,
    List.range_succ]
  all_goals try assumption
  case mkChan.isFalse.sig => simp [hst.2.2]
  case mkChan.isFalse.printed => simp [hst.2.2]
  case spawn.launch => simp [h1, Task.key]
  case spawn.wrote_mem =>
    rintro t (ht | rfl) hw
    · exact h2 t ht hw
    · simp [TPc.written] at hw
  case spawn.wrote_key =>
    intro b y' hm
    exact ⟨Or.inl (h3 b y' hm).1, (h3 b y' hm).2⟩
  case spawn.failed_key =>
    intro b y' hm
    exact ⟨Or.inl (h4 b y' hm).1, (h4 b y' hm).2⟩
  case spawn.ret_mem =>
    rintro t (ht | rfl) hw
    · exact h5 t ht hw
    · simp [TPc.returned] at hw
  case spawn.ret_key =>
    intro b y' hm
    exact Or.inl (h6 b y' hm)

theorem InvA.returned_of_done {p : Params} {ok : Nat → Nat → Bool} {s : State}
    (hA : InvA p ok s) (hd : s.pc = .done ∨ s.pc = .printTotal ∨ s.pc = .loopX) :
    ∀ t ∈ s.tasks, t.pc.returned = true := by
  intro t ht
  have hk := (hA.keys t.batch t.idx).1 (List.mem_map_of_mem Task.key ht)
  have hy : s.ycur = 0 := by
    rcases hd with hd | hd | hd <;> simp [State.ycur, hd, LPc.inBatch]
  exact hA.returned t ht (Or.inl (by omega))

theorem invL_update {p : Params} {ok : Nat → Nat → Bool} {s : State} (h : InvL p ok s)
    (hA : InvA p ok s) {i : Nat} {t : Task} (ht : s.tasks[i]? = some t) (c : TPc)
    (sem' : Nat) (wg' : Int) (evs : List Event)
    (hl : evs.filterMap Event.launchKey = [])
    (hsg : evs.filterMap Event.sigNum = [])
    (htot : evs.filterMap Event.totalVal = [])
    (hline : evs.filterMap Event.line = [])
    (hw : c.written = true → t.pc.written = true ∨ Event.wrote t.batch t.idx ∈ evs)
    (hr : c.returned = true → t.pc.returned = true ∨ Event.ret t.batch t.idx ∈ evs)
    (hwk : ∀ b y, Event.wrote b y ∈ evs → (b, y) = t.key ∧ ok b y = true)
    (hfk : ∀ b y, Event.failed b y ∈ evs → (b, y) = t.key ∧ ok b y = false)
    (hrk : ∀ b y, Event.ret b y ∈ evs → (b, y) = t.key)
    (hcalls : evs.countP Event.isSinkCall + (if t.pc != .exec then 1 else 0)
      = (if c != .exec then 1 else 0))
    (hevs : evs ≠ [] → t.pc.returned = false) :
    InvL p ok { s with sem := sem', wg := wg', tasks := s.tasks.set i { t with pc := c },
                       log := s.log ++ evs } := by
  obtain ⟨h1, h2, h3, h4, h5, h6, h7, h8, h9, h10, h11⟩ := h
  have hC := countP_set_of_getElem? (fun t => t.pc != .exec) s.tasks i t { t with pc := c } ht
  have hK := map_set_of_getElem? Task.key s.tasks i t { t with pc := c } ht rfl
  have hmem : ∀ u ∈ s.tasks.set i { t with pc := c }, u ∈ s.tasks ∨ u = { t with pc := c } :=
    fun u hu => List.mem_or_eq_of_mem_set hu
  have htm : t ∈ s.tasks := mem_of_getElem? ht
  have htk : t.key ∈ s.tasks.map Task.key := List.mem_map_of_mem Task.key htm
  have hdone := hA.returned_of_done
  rcases s with ⟨pc, x, y, wg, sem, tasks, halted, log⟩
  simp only at hC hK hmem htm htk ht hdone
  beta_reduce at hC
  simp only [State.launches, State.signals, State.totals, State.sinkCalls, State.printed] at h1 h2 h3 h4 h5 h6 h7 h8 h9 h10 h11
  constructor <;> simp only [State.launches, State.signals, State.totals, State.sinkCalls,
    State.printed, hK, List.filterMap_append, List.countP_append, hl, hsg, htot, hline,
    List.append_nil]
  all_goals try assumption
  · intro u hu hc
    rcases hmem u hu with hu | rfl
    · exact List.mem_append_left _ (h2 u hu hc)
    · rcases hw hc with hw | hw
      · exact List.mem_append_left _ (h2 t htm hw)
      · exact List.mem_append_right _ hw
  · intro b y' hm
    rcases List.mem_append.1 hm with hm | hm
    · exact h3 b y' hm
    · obtain ⟨hk, hok⟩ := hwk b y' hm
      exact ⟨hk ▸ htk, hok⟩
  · intro b y' hm
    rcases List.mem_append.1 hm with hm | hm
    · exact h4 b y' hm
    · obtain ⟨hk, hok⟩ := hfk b y' hm
      exact ⟨hk ▸ htk, hok⟩
  · intro u hu hc
    rcases hmem u hu with hu | rfl
    · exact List.mem_append_left _ (h5 u hu hc)
    · rcases hr hc with hw | hw
      · exact List.mem_append_left _ (h5 t htm hw)
      · exact List.mem_append_right _ hw
  · intro b y' hm
    rcases List.mem_append.1 hm with hm | hm
    · exact h6 b y' hm
    · exact (hrk b y' hm) ▸ htk
  · omega
  · intro hd
    have hr := hdone (Or.inl hd) t htm
    have : evs = [] := by
      by_contra hne
      simp [hevs hne] at hr
    simp [this, h10 hd]

theorem invL_task {p : Params} {ok : Nat → Nat → Bool} {s s' : State} {i : Nat}
    (h : InvL p ok s) (hA : InvA p ok s) (hs : taskStep ok s i = some s') :
    InvL p ok s' := by
  unfold taskStep at hs
  split at hs
  · simp at hs
  rename_i t ht
  rcases t with ⟨b, y, c⟩
  cases c <;> simp only at hs
  · -- exec
    split at hs <;> (simp only [Option.some.injEq] at hs; subst hs)
    · rename_i hok
      have := invL_update h hA ht .deferDone s.sem s.wg [.wrote b y]
        (by simp [Event.launchKey]) (by simp [Event.sigNum]) (by simp [Event.totalVal])
        (by simp [Event.line])
        (by simp) (by simp [TPc.returned]) (by simp [Task.key, hok]) (by simp) (by simp)
        (by simp [Event.isSinkCall]) (by simp [TPc.returned])
      exact this
    · rename_i hok
      have := invL_update h hA ht .fatal s.sem s.wg [.failed b y]
        (by simp [Event.launchKey]) (by simp [Event.sigNum]) (by simp [Event.totalVal])
        (by simp [Event.line])
        (by simp [TPc.written]) (by simp [TPc.returned]) (by simp) (by simp [Task.key, hok])
        (by simp) (by simp [Event.isSinkCall]) (by simp [TPc.returned])
      exact this
  · -- fatal
    simp only [Option.some.injEq] at hs; subst hs
    exact ⟨h.1, h.2, h.3, h.4, h.5, h.6, h.7, h.8, h.9, h.10, h.11⟩
  · -- deferDone
    split at hs
    · simp only [Option.some.injEq] at hs; subst hs
      exact ⟨h.1, h.2, h.3, h.4, h.5, h.6, h.7, h.8, h.9, h.10, h.11⟩
    · simp only [Option.some.injEq] at hs; subst hs
      have := invL_update h hA ht .recv s.sem (s.wg - 1) [.ret b y]
        (by simp [Event.launchKey]) (by simp [Event.sigNum]) (by simp [Event.totalVal])
        (by simp [Event.line])
        (by simp [TPc.written]) (by simp) (by simp) (by simp)
        (by simp [Task.key]) (by simp [Event.isSinkCall]) (by simp [TPc.returned])
      exact this
  · -- recv
    split at hs
    · simp only [Option.some.injEq] at hs; subst hs
      have := invL_update h hA ht .exited (s.sem - 1) s.wg []
        (by simp) (by simp) (by simp) (by simp)
        (by simp [TPc.written]) (by simp [TPc.returned]) (by simp) (by simp)
        (by simp) (by simp) (by simp)
      simpa using this
    · simp at hs
  · simp at hs

/-- In a state that satisfies the control invariant no rendezvous is possible: a goroutine
can only wait at its receive while it holds a buffered permit. -/
theorem handoffStep_eq_none {p : Params} {ok : Nat → Nat → Bool} {s : State} (i : Nat)
    (h : InvA p ok s) : handoffStep p s i = none := by
  cases hs : handoffStep p s i with
  | none => rfl
  | some s' =>
    exfalso
    unfold handoffStep at hs
    split at hs
    · rename_i hc
      split at hs
      · simp at hs
      · rename_i t ht
        split at hs
        · rename_i hr
          have hpos : 0 < s.holders := countP_pos_of_getElem? ht (by simp [hr, TPc.holds])
          have h1 := h.sem_eq
          have h2 := h.sem_le
          rw [hc.1] at h2
          simp at h2
          omega
        · simp at hs
    · simp at hs

theorem invL_step {p : Params} {ok : Nat → Nat → Bool} {s s' : State} {a : Action}
    (h : InvL p ok s) (hA : InvA p ok s) (hs : step p ok s a = some s') : InvL p ok s' := by
  unfold step at hs
  split at hs
  · simp at hs
  · cases a
    · exact invL_launcher h hA hs
    · exact invL_task h hA hs
    · simp [handoffStep_eq_none _ hA] at hs

theorem invL_of_reachable {p : Params} {ok : Nat → Nat → Bool} {s : State}
    (h : Reachable p ok s) : InvL p ok s := by
  induction h with
  | init => exact invL_init p ok
  | step a hr hs ih => exact invL_step ih (invA_of_reachable hr) hs

/-! ## Progress and termination -/

theorem reachable_run {p : Params} {ok : Nat → Nat → Bool} :
    ∀ (sched : List Action) {s s' : State}, Reachable p ok s → run p ok sched s = some s' →
      Reachable p ok s'
  | [], s, s', h, hr => by
    simp only [run, Option.some.injEq] at hr
    exact hr ▸ h
  | a :: as, s, s', h, hr => by
    simp only [run] at hr
    split at hr
    · simp at hr
    · rename_i s1 hs1
      exact reachable_run as (Reachable.step a h hs1) hr

theorem run_append {p : Params} {ok : Nat → Nat → Bool} :
    ∀ (as bs : List Action) (s : State),
      run p ok (as ++ bs) s = (run p ok as s).bind (run p ok bs)
  | [], bs, s => by simp [run]
  | a :: as, bs, s => by
    simp only [List.cons_append, run]
    split
    · simp
    · exact run_append as bs _

theorem exists_run_of_reachable {p : Params} {ok : Nat → Nat → Bool} {s : State}
    (h : Reachable p ok s) : ∃ sched, run p ok sched init = some s := by
  induction h with
  | init => exact ⟨[], rfl⟩
  | step a _ hs ih =>
    obtain ⟨sched, hr⟩ := ih
    refine ⟨sched ++ [a], ?_⟩
    rw [run_append, hr]
    simp [run, hs]

/-- A goroutine that still holds a permit can move, except that a receive needs a
buffered permit. -/
theorem taskStep_enabled {o : Nat → Nat → Bool} {s : State} {i : Nat} {t : Task}
    (ht : s.tasks[i]? = some t) (hh : t.pc.holds = true) (hr : t.pc = .recv → 0 < s.sem) :
    ∃ s', taskStep o s i = some s' := by
  unfold taskStep
  rw [ht]
  rcases t with ⟨b, y, c⟩
  cases c <;> simp only
  · split <;> exact ⟨_, rfl⟩
  · exact ⟨_, rfl⟩
  · split <;> exact ⟨_, rfl⟩
  · simp only [if_pos (hr rfl)]
    exact ⟨_, rfl⟩
  · simp [TPc.holds] at hh

theorem TPc.holds_of_inFlight {c : TPc} (h : c.inFlight = true) : c.holds = true := by
  cases c <;> simp_all [TPc.inFlight, TPc.holds]

/-- With at least one permit the process is never stuck before the launcher returns:
a blocked launcher always waits for a goroutine that can move. -/
theorem progress {p : Params} {ok : Nat → Nat → Bool} {s : State} (hA : InvA p ok s)
    (hC : 1 ≤ p.concurrency) (hh : s.halted = false) (hd : s.pc ≠ .done) :
    ∃ a s', step p ok s a = some s' := by
  have hsem := hA.sem_eq
  have hwg := hA.wg_eq
  by_cases hl : ∃ s', launcherStep p s = some s'
  · obtain ⟨s', hs'⟩ := hl
    exact ⟨.launcher, s', by simp [step, hh, hs']⟩
  · have hblocked : (s.pc = .send ∧ ¬ (s.sem : Int) < p.concurrency) ∨
        (s.pc = .wait ∧ s.wg ≠ 0) := by
      rcases s with ⟨pc, x, y, wg, sem, tasks, halted, log⟩
      cases pc <;> simp [launcherStep] at hl hd ⊢
      · split at hl <;> simp at hl
      · split at hl <;> simp at hl
      · split at hl <;> simp at hl
      · exact hl
      · exact hl
    rcases hblocked with ⟨hpc, hfull⟩ | ⟨hpc, hne⟩
    · simp only [hpc, reduceCtorEq, if_false, add_zero] at hsem
      have hpos : 0 < s.tasks.countP (fun t => t.pc.holds) := by
        simp only [State.holders] at hsem
        omega
      obtain ⟨t, htm, hth⟩ := List.countP_pos_iff.1 hpos
      obtain ⟨i, hi⟩ := List.mem_iff_getElem?.1 htm
      obtain ⟨s', hs'⟩ := taskStep_enabled (o := ok) hi hth (fun _ => by omega)
      exact ⟨.task i, s', by simp [step, hh, hs']⟩
    · simp only [hpc, reduceCtorEq, or_self, if_false, add_zero] at hwg
      have hpos : 0 < s.tasks.countP (fun t => t.pc.inFlight) := by
        simp only [State.inFlight] at hwg
        omega
      obtain ⟨t, htm, hth⟩ := List.countP_pos_iff.1 hpos
      obtain ⟨i, hi⟩ := List.mem_iff_getElem?.1 htm
      obtain ⟨s', hs'⟩ := taskStep_enabled (o := ok) hi (TPc.holds_of_inFlight hth)
        (fun hr => by simp [hr, TPc.inFlight] at hth)
      exact ⟨.task i, s', by simp [step, hh, hs']⟩

theorem sum_cost_set {α : Type} (f : α → Nat) :
    ∀ (l : List α) (i : Nat) (t u : α), l[i]? = some t →
      ((l.set i u).map f).sum + f t = (l.map f).sum + f u
  | [], i, t, u, h => by simp at h
  | a :: l, 0, t, u, h => by
    simp at h
    subst h
    simp only [List.set_cons_zero, List.map_cons, List.sum_cons]
    omega
  | a :: l, i + 1, t, u, h => by
    simp at h
    have := sum_cost_set f l i t u h
    simp only [List.set_cons_succ, List.map_cons, List.sum_cons]
    omega

theorem sub_succ_mul {n x k : Nat} (h : x < n) : (n - (x + 1)) * k + k = (n - x) * k := by
  obtain ⟨d, rfl⟩ : ∃ d, n = x + 1 + d := ⟨n - (x + 1), by omega⟩
  have h1 : x + 1 + d - (x + 1) = d := by omega
  have h2 : x + 1 + d - x = d + 1 := by omega
  rw [h1, h2, Nat.succ_mul]

theorem measure_launcher {p : Params} {ok : Nat → Nat → Bool} {s s' : State}
    (hA : InvA p ok s) (hh : s.halted = false) (hs : launcherStep p s = some s') :
    measure p s' < measure p s := by
  have hx := hA.x_lt
  have hy := hA.y_lt
  have hst := hA.start
  rcases s with ⟨pc, x, y, wg, sem, tasks, halted, log⟩
  simp only at hh
  subst hh
  cases pc <;> simp only [launcherStep] at hs <;> simp [LPc.inBatch] at hx hy hst
  all_goals try split at hs
  all_goals try simp only [Option.some.injEq, reduceCtorEq] at hs
  all_goals try subst hs
  all_goals simp [measure, launcherCost, taskCost]
  all_goals try omega
  case loopX.isTrue =>
    rename_i hlt
    have := sub_succ_mul (n := p.batch.toNat) (x := x) (k := 7 * p.size.toNat + 4) (by omega)
    omega
  case spawn =>
    simp only [TPc.cost]
    omega

theorem measure_update {p : Params} {s : State} (hh : s.halted = false) {i : Nat} {t : Task}
    (ht : s.tasks[i]? = some t) (c : TPc) (sem' : Nat) (wg' : Int) (log' : List Event)
    (hc : c.cost < t.pc.cost) :
    measure p { s with sem := sem', wg := wg', tasks := s.tasks.set i { t with pc := c },
                       log := log' } < measure p s := by
  have := sum_cost_set (fun t => t.pc.cost) s.tasks i t { t with pc := c } ht
  rcases s with ⟨pc, x, y, wg, sem, tasks, halted, log⟩
  simp only at hh this
  subst hh
  cases pc <;> simp only [measure, launcherCost, taskCost, Bool.false_eq_true, if_false] <;> omega

theorem measure_task {p : Params} {ok : Nat → Nat → Bool} {s s' : State} {i : Nat}
    (hh : s.halted = false) (hs : taskStep ok s i = some s') :
    measure p s' < measure p s := by
  unfold taskStep at hs
  split at hs
  · simp at hs
  rename_i t ht
  have hhalt : measure p { s with halted := true } < measure p s := by
    simp [measure, hh]
  rcases t with ⟨b, y, c⟩
  cases c <;> simp only at hs
  · split at hs <;> (simp only [Option.some.injEq] at hs; subst hs)
    · exact measure_update hh ht .deferDone _ _ _ (by simp [TPc.cost])
    · exact measure_update hh ht .fatal _ _ _ (by simp [TPc.cost])
  · simp only [Option.some.injEq] at hs; subst hs
    exact hhalt
  · split at hs <;> (simp only [Option.some.injEq] at hs; subst hs)
    · exact hhalt
    · exact measure_update hh ht .recv _ _ _ (by simp [TPc.cost])
  · split at hs
    · simp only [Option.some.injEq] at hs; subst hs
      exact measure_update hh ht .exited _ _ _ (by simp [TPc.cost])
    · simp at hs
  · simp at hs

/-- Every step strictly decreases the measure. -/
theorem measure_step {p : Params} {ok : Nat → Nat → Bool} {s s' : State} {a : Action}
    (hA : InvA p ok s) (hs : step p ok s a = some s') : measure p s' < measure p s := by
  unfold step at hs
  split at hs
  · simp at hs
  · rename_i hh
    have hh : s.halted = false := by simpa using hh
    cases a
    · exact measure_launcher hA hh hs
    · exact measure_task hh hs
    · simp [handoffStep_eq_none _ hA] at hs

/-- No schedule is longer than the measure of the state it starts in. -/
theorem run_length_le {p : Params} {ok : Nat → Nat → Bool} :
    ∀ (sched : List Action) {s s' : State}, InvA p ok s → run p ok sched s = some s' →
      sched.length + measure p s' ≤ measure p s
  | [], s, s', _, hr => by
    simp only [run, Option.some.injEq] at hr
    subst hr
    simp
  | a :: as, s, s', hA, hr => by
    simp only [run] at hr
    split at hr
    · simp at hr
    · rename_i s1 hs1
      have h1 := measure_step hA hs1
      have h2 := run_length_le as (invA_step hA hs1) hr
      simp only [List.length_cons]
      omega

/-- From every state that satisfies the control invariant, with at least one permit, some
schedule leads to a state in which the launcher has returned or the process has
terminated abnormally. -/
theorem exists_final_run {p : Params} {o : Nat → Nat → Bool} (hC : 1 ≤ p.concurrency) :
    ∀ (n : Nat) (s : State), InvA p o s → measure p s ≤ n →
      ∃ sched s', run p o sched s = some s' ∧ (s'.pc = .done ∨ s'.halted = true)
  | 0, s, hA, hn => by
    by_cases hh : s.halted = true
    · exact ⟨[], s, rfl, Or.inr hh⟩
    · simp [measure, hh] at hn
  | n + 1, s, hA, hn => by
    by_cases hh : s.halted = true
    · exact ⟨[], s, rfl, Or.inr hh⟩
    by_cases hd : s.pc = .done
    · exact ⟨[], s, rfl, Or.inl hd⟩
    obtain ⟨a, s1, hs1⟩ := progress hA hC (by simpa using hh) hd
    have hlt := measure_step hA hs1
    obtain ⟨sched, s', hr, hfin⟩ := exists_final_run hC n s1 (invA_step hA hs1) (by omega)
    exact ⟨a :: sched, s', by simp [run, hs1, hr], hfin⟩

/-! ## Histories -/

/-- A step appends at most one event to the history. -/
theorem step_log {p : Params} {ok : Nat → Nat → Bool} {s s' : State} {a : Action}
    (hs : step p ok s a = some s') : s'.log = s.log ∨ ∃ e, s'.log = s.log ++ [e] := by
  unfold step at hs
  split at hs
  · simp at hs
  cases a
  · simp only at hs
    rcases s with ⟨pc, x, y, wg, sem, tasks, halted, log⟩
    cases pc <;> simp only [launcherStep] at hs
    all_goals try split at hs
    all_goals try simp only [Option.some.injEq, reduceCtorEq] at hs
    all_goals try subst hs
    all_goals simp
  · simp only [taskStep] at hs
    split at hs
    · simp at hs
    rename_i t ht
    rcases t with ⟨b, y, c⟩
    cases c <;> simp only at hs
    all_goals try split at hs
    all_goals try simp only [Option.some.injEq, reduceCtorEq] at hs
    all_goals try subst hs
    all_goals simp
  · simp only [handoffStep] at hs
    split at hs
    · split at hs
      · simp at hs
      · split at hs
        · simp only [Option.some.injEq] at hs
          subst hs
          simp
        · simp at hs
    · simp at hs

/-- Every initial segment of a reachable history is the history of a reachable state: the
history of a state that an execution passed through earlier. -/
theorem log_prefix {p : Params} {ok : Nat → Nat → Bool} {s : State}
    (h : Reachable p ok s) :
    ∀ l1 l2, s.log = l1 ++ l2 → ∃ s0, Reachable p ok s0 ∧ s0.log = l1 := by
  induction h with
  | init =>
    intro l1 l2 hl
    simp only [init] at hl
    have : l1 = [] := by
      cases l1 with
      | nil => rfl
      | cons a l => simp at hl
    exact ⟨init, Reachable.init, by simp [init, this]⟩
  | @step s s' a hr hs ih =>
    intro l1 l2 hl
    rcases step_log hs with h0 | ⟨e, he⟩
    · exact ih l1 l2 (h0 ▸ hl)
    · rcases List.eq_nil_or_concat l2 with h2 | ⟨l2', e', h2⟩
      · subst h2
        exact ⟨s', Reachable.step a hr hs, by simpa using hl⟩
      · subst h2
        rw [he, List.concat_eq_append, ← List.append_assoc] at hl
        have := List.append_inj' hl rfl
        exact ih l1 l2' this.1

/-! ## Consequences of the invariants -/

/-- Tasks in flight hold permits, and no more permits are held than the channel has room
for. -/
theorem InvA.inFlight_le_sem {p : Params} {ok : Nat → Nat → Bool} {s : State}
    (hA : InvA p ok s) : s.inFlight ≤ s.sem ∧ s.sem ≤ p.concurrency.toNat := by
  have h1 := hA.sem_eq
  have h2 : s.inFlight ≤ s.holders :=
    List.countP_mono_left (fun t _ h => TPc.holds_of_inFlight h)
  exact ⟨by omega, hA.sem_le⟩

/-- A process whose sink accepts every write never terminates abnormally, unless the
channel cannot be created. -/
theorem not_halted_of_ok {p : Params} {ok : Nat → Nat → Bool} {s : State}
    (hA : InvA p ok s) (hC : 0 ≤ p.concurrency) (hok : ∀ b y, ok b y = true) :
    s.halted = false := by
  by_contra hh
  have hh : s.halted = true := by simpa using hh
  rcases hA.halt hh with ⟨_, hc⟩ | ⟨t, ht, hf⟩
  · omega
  · have := hA.sink_bad t ht hf
    simp [hok] at this

/-- Every task belongs to the current batch or to an earlier one. -/
theorem InvA.batch_le {p : Params} {ok : Nat → Nat → Bool} {s : State} (hA : InvA p ok s) :
    ∀ t ∈ s.tasks, t.batch ≤ s.x := by
  intro t ht
  have := (hA.keys t.batch t.idx).1 (List.mem_map_of_mem Task.key ht)
  omega

/-- Every task in flight belongs to the current batch. -/
theorem InvA.inFlight_batch {p : Params} {ok : Nat → Nat → Bool} {s : State}
    (hA : InvA p ok s) : ∀ t ∈ s.tasks, t.pc.inFlight = true → t.batch = s.x := by
  intro t ht hf
  have h1 := hA.batch_le t ht
  by_contra hne
  have := hA.returned t ht (Or.inl (by omega))
  cases hc : t.pc <;> simp [hc, TPc.inFlight, TPc.returned] at hf this

/-- Every task of an earlier batch exists and has returned from `insertData`, and its
return is in the history. -/
theorem earlier_batch_returned {p : Params} {ok : Nat → Nat → Bool} {s : State}
    (hA : InvA p ok s) (hL : InvL p ok s) {b y : Nat} (hb : b < s.x ∨ s.pc = .printBatch ∧ b = s.x)
    (hy : (y : Int) < p.size) :
    (∃ t ∈ s.tasks, t.batch = b ∧ t.idx = y ∧ t.pc.returned = true) ∧
      Event.ret b y ∈ s.log ∧ Event.wrote b y ∈ s.log := by
  have hk : (b, y) ∈ s.tasks.map Task.key := by
    apply (hA.keys b y).2
    rcases hb with hb | ⟨hpc, hb⟩
    · left; omega
    · right
      have := hA.y_end (Or.inr hpc)
      simp only [State.ycur, hpc, LPc.inBatch, if_true]
      omega
  obtain ⟨t, ht, htk⟩ := List.mem_map.1 hk
  simp only [Task.key, Prod.mk.injEq] at htk
  have hr : t.pc.returned = true := hA.returned t ht (by
    rcases hb with hb | ⟨hpc, _⟩
    · left; omega
    · right; exact hpc)
  have hw : t.pc.written = true := by
    cases hc : t.pc <;> simp [hc, TPc.returned, TPc.written] at hr ⊢
  refine ⟨⟨t, ht, htk.1, htk.2, hr⟩, ?_, ?_⟩
  · have := hL.ret_mem t ht hr
    rwa [htk.1, htk.2] at this
  · have := hL.wrote_mem t ht hw
    rwa [htk.1, htk.2] at this

/-- What has happened when the launcher has returned. -/
theorem done_facts {p : Params} {ok : Nat → Nat → Bool} {s : State}
    (hA : InvA p ok s) (hL : InvL p ok s) (hd : s.pc = .done) :
    s.launches.length = p.batch.toNat * p.size.toNat ∧
    s.sinkCalls = p.batch.toNat * p.size.toNat ∧
    s.signals = (List.range p.batch.toNat).map (· + 1) ∧
    s.totals = [wrapInt (p.batch * p.size)] ∧
    s.log.getLast? = some (.total (wrapInt (p.batch * p.size))) ∧
    s.printed = (List.range p.batch.toNat).map (fun i => batchLine ((i + 1 : Nat) : Int)) ++
      [totalLine (wrapInt (p.batch * p.size))] := by
  have hx := hA.x_end (Or.inr hd)
  have hlen := hA.len
  have hy : s.ycur = 0 := by simp [State.ycur, hd, LPc.inBatch]
  have hret := hA.returned_of_done (Or.inl hd)
  have hcalls : s.tasks.countP (fun t => t.pc != .exec) = s.tasks.length := by
    rw [List.countP_eq_length]
    intro t ht
    have := hret t ht
    cases hc : t.pc <;> simp [hc, TPc.returned] at this ⊢
  refine ⟨?_, ?_, ?_, ?_, hL.last hd, ?_⟩
  · rw [hL.launch, List.length_map, hlen, hx, hy]; rfl
  · rw [hL.calls, hcalls, hlen, hx, hy]; rfl
  · rw [hL.sig, hx]
  · rw [hL.total, if_pos hd]
  · rw [hL.printed, if_pos hd, hx]

/-- The goroutines started are exactly the tasks `(b, y)` of the batches begun so far, each
started once. -/
theorem launches_spec {p : Params} {ok : Nat → Nat → Bool} {s : State}
    (hA : InvA p ok s) (hL : InvL p ok s) :
    s.launches.Nodup ∧ ∀ b y, (b, y) ∈ s.launches ↔
      (b < s.x ∧ y < p.size.toNat) ∨ (b = s.x ∧ y < s.ycur) := by
  rw [hL.launch]
  exact ⟨hA.keys_nodup, hA.keys⟩

/-- With a sink that never fails, the history has no failed write. -/
theorem no_failed_of_ok {p : Params} {ok : Nat → Nat → Bool} {s : State}
    (hL : InvL p ok s) (hok : ∀ b y, ok b y = true) : ∀ b y, Event.failed b y ∉ s.log := by
  intro b y hm
  have := (hL.failed_key b y hm).2
  simp [hok] at this

theorem wrapInt_of_range {v : Int} (h0 : 0 ≤ v) (h1 : v ≤ maxInt) : wrapInt v = v := by
  unfold wrapInt
  unfold maxInt at h1
  omega

theorem toNat_mul_toNat {B S : Int} (hB : 0 ≤ B) (hS : 0 ≤ S) :
    ((B.toNat * S.toNat : Nat) : Int) = B * S := by
  rw [Nat.cast_mul, Int.toNat_of_nonneg hB, Int.toNat_of_nonneg hS]

/-- With at least one permit and a sink that never fails, some schedule takes the process
from its start to the return of the launcher. -/
theorem exists_complete_run {p : Params} {o : Nat → Nat → Bool} (hC : 1 ≤ p.concurrency)
    (hok : ∀ b y, o b y = true) :
    ∃ sched s, run p o sched init = some s ∧ s.pc = .done := by
  obtain ⟨sched, s, hr, hfin⟩ :=
    exists_final_run (o := o) hC (measure p init) init (invA_init p o) (le_refl _)
  refine ⟨sched, s, hr, ?_⟩
  rcases hfin with hd | hh
  · exact hd
  · have hA := invA_of_reachable (reachable_run sched Reachable.init hr)
    have := not_halted_of_ok hA (by omega) hok
    simp [this] at hh

theorem mem_signals_iff {p : Params} {ok : Nat → Nat → Bool} {s : State} (hL : InvL p ok s)
    (n : Nat) : Event.batchDone n ∈ s.log ↔ 1 ≤ n ∧ n ≤ s.x := by
  have h : Event.batchDone n ∈ s.log ↔ n ∈ s.signals := by
    simp only [State.signals, List.mem_filterMap]
    constructor
    · intro h; exact ⟨_, h, rfl⟩
    · rintro ⟨e, he, hn⟩
      cases e <;> simp [Event.sigNum] at hn
      subst hn
      exact he
  rw [h, hL.sig]
  simp only [List.mem_map, List.mem_range]
  constructor
  · rintro ⟨i, hi, rfl⟩; omega
  · intro hn; exact ⟨n - 1, by omega, by omega⟩

theorem mem_total_iff {p : Params} {ok : Nat → Nat → Bool} {s : State} (hL : InvL p ok s)
    (v : Int) : Event.total v ∈ s.log ↔ s.pc = .done ∧ v = wrapInt (p.batch * p.size) := by
  have h : Event.total v ∈ s.log ↔ v ∈ s.totals := by
    simp only [State.totals, List.mem_filterMap]
    constructor
    · intro h; exact ⟨_, h, rfl⟩
    · rintro ⟨e, he, hn⟩
      cases e <;> simp [Event.totalVal] at hn
      subst hn
      exact he
  rw [h, hL.total]
  split <;> simp [*]

theorem mem_launch_iff {p : Params} {ok : Nat → Nat → Bool} {s : State} (hL : InvL p ok s)
    (b y : Nat) : Event.launch b y ∈ s.log ↔ (b, y) ∈ s.tasks.map Task.key := by
  rw [← hL.launch]
  simp only [State.launches, List.mem_filterMap]
  constructor
  · intro h; exact ⟨_, h, rfl⟩
  · rintro ⟨e, he, hn⟩
    cases e <;> simp [Event.launchKey] at hn
    obtain ⟨rfl, rfl⟩ := hn
    exact he

/-- A task whose write the sink rejects keeps the launcher in its batch. -/
theorem x_le_of_fail {p : Params} {ok : Nat → Nat → Bool} {s : State} (hA : InvA p ok s)
    {k y0 : Nat} (hy : (y0 : Int) < p.size) (hfail : ok k y0 = false) :
    s.x ≤ k ∧ ¬ (s.pc = .printBatch ∧ s.x = k) := by
  have aux : ∀ t ∈ s.tasks, t.batch = k → t.idx = y0 → t.pc.returned = true → False := by
    intro t ht hb hi hr
    have hw : t.pc.written = true := by
      cases hc : t.pc <;> simp [hc, TPc.returned, TPc.written] at hr ⊢
    have := hA.sink_ok t ht hw
    rw [hb, hi, hfail] at this
    simp at this
  constructor
  · by_contra hlt
    have hk : (k, y0) ∈ s.tasks.map Task.key :=
      (hA.keys k y0).2 (Or.inl ⟨by omega, by omega⟩)
    obtain ⟨t, ht, htk⟩ := List.mem_map.1 hk
    simp only [Task.key, Prod.mk.injEq] at htk
    exact aux t ht htk.1 htk.2 (hA.returned t ht (Or.inl (by omega)))
  · rintro ⟨hpc, hx⟩
    have hk : (k, y0) ∈ s.tasks.map Task.key := by
      apply (hA.keys k y0).2
      right
      have := hA.y_end (Or.inr hpc)
      simp only [State.ycur, hpc, LPc.inBatch, if_true]
      omega
    obtain ⟨t, ht, htk⟩ := List.mem_map.1 hk
    simp only [Task.key, Prod.mk.injEq] at htk
    exact aux t ht htk.1 htk.2 (hA.returned t ht (Or.inr hpc))

theorem exists_of_countP_lt {α : Type} {q r : α → Bool} {l : List α}
    (h : l.countP q < l.countP r) : ∃ t ∈ l, r t = true ∧ q t = false := by
  by_contra hne
  have : l.countP r ≤ l.countP q := by
    apply List.countP_mono_left
    intro t ht hr
    by_contra hq
    exact hne ⟨t, ht, hr, by simpa using hq⟩
  omega

/-! ## Concurrency 0 and below -/

/-- With a concurrency `C ≤ 0` the semaphore never holds a permit and no goroutine is ever
started. -/
theorem no_task_of_nonpos {p : Params} {o : Nat → Nat → Bool} (hC : p.concurrency ≤ 0)
    {s : State} (hs : Reachable p o s) :
    s.tasks = [] ∧ s.sem = 0 ∧ s.pc ≠ .spawn ∧
      (p.concurrency < 0 → s.pc = .mkChan ∧ s.log = []) ∧
      (p.concurrency = 0 → s.halted = false) := by
  induction hs with
  | init => simp [init]
  | @step s s' a hr hs ih =>
    obtain ⟨h1, h2, h3, h4, h5⟩ := ih
    unfold step at hs
    split at hs
    · simp at hs
    rename_i hh
    cases a
    · simp only at hs
      rcases s with ⟨pc, x, y, wg, sem, tasks, halted, log⟩
      simp only at h1 h2 h3 h4 h5 hh
      subst h1 h2
      cases pc <;> simp only [launcherStep] at hs
      all_goals try split at hs
      all_goals try simp only [Option.some.injEq, reduceCtorEq] at hs
      all_goals try subst hs
      all_goals try (simp at h3; done)
      all_goals try (rename_i hlt; simp only [Nat.cast_zero] at hlt; omega)
      all_goals refine ⟨rfl, rfl, by simp, ?_, ?_⟩
      all_goals intro hc
      all_goals first
        | exact ⟨rfl, (h4 hc).2⟩
        | omega
        | (have h4' := h4 hc; simp at h4')
        | simpa using hh
    · simp [taskStep, h1] at hs
    · simp [handoffStep, h1] at hs

/-- With concurrency 0, `B ≥ 1` and `S ≥ 1` the launcher never gets past its first
`semaphore <- struct{}{}`. -/
theorem stuck_of_zero {p : Params} {o : Nat → Nat → Bool} (hC : p.concurrency = 0)
    (hB : 1 ≤ p.batch) (hS : 1 ≤ p.size) {s : State} (hs : Reachable p o s) :
    s.log = [] ∧ s.x = 0 ∧
      (s.pc = .mkChan ∨ s.pc = .loopX ∨ ((s.pc = .loopY ∨ s.pc = .add ∨ s.pc = .send) ∧
        s.y = 0)) := by
  induction hs with
  | init => simp [init]
  | @step s s' a hr hs ih =>
    have hn := no_task_of_nonpos (o := o) (le_of_eq hC) hr
    obtain ⟨h1, h2, h3⟩ := ih
    unfold step at hs
    split at hs
    · simp at hs
    cases a
    · simp only at hs
      rcases s with ⟨pc, x, y, wg, sem, tasks, halted, log⟩
      simp only at h1 h2 h3 hn
      obtain ⟨hn1, hn2, -⟩ := hn
      subst h1 h2 hn1 hn2
      cases pc <;> simp only [launcherStep] at hs
      all_goals try split at hs
      all_goals try simp only [Option.some.injEq, reduceCtorEq] at hs
      all_goals try subst hs
      all_goals try (simp at h3; done)
      all_goals try (rename_i hlt; simp only [Nat.cast_zero] at hlt; omega)
      all_goals simp at h3 ⊢
      all_goals try assumption
      · rename_i hlt
        subst h3
        simp only [Nat.cast_zero] at hlt
        omega
    · simp [taskStep, hn.1] at hs
    · simp [handoffStep, hn.1] at hs

/-- When the batch count or the batch size is not positive the launcher never reaches
`wg.Add(1)`, and no goroutine is started. -/
theorem no_add_of_empty {p : Params} {o : Nat → Nat → Bool}
    (hBS : p.batch ≤ 0 ∨ p.size ≤ 0) {s : State}
    (hs : Reachable p o s) :
    s.tasks = [] ∧ s.pc ≠ .add ∧ s.pc ≠ .send ∧ s.pc ≠ .spawn ∧
      (0 < p.size → s.pc ≠ .loopY) := by
  induction hs with
  | init => simp [init]
  | @step s s' a hr hs ih =>
    obtain ⟨h1, h2, h3, h4, h5⟩ := ih
    unfold step at hs
    split at hs
    · simp at hs
    cases a
    · simp only at hs
      rcases s with ⟨pc, x, y, wg, sem, tasks, halted, log⟩
      simp only at h1 h2 h3 h4 h5
      subst h1
      cases pc <;> simp only [launcherStep] at hs
      all_goals try split at hs
      all_goals try simp only [Option.some.injEq, reduceCtorEq] at hs
      all_goals try subst hs
      all_goals try (simp at h2 h3 h4; done)
      all_goals simp
      all_goals try omega
      · rename_i hlt
        exact h5 (by omega) rfl
    · simp [taskStep, h1] at hs
    · simp [handoffStep, h1] at hs

/-- The concurrency is only read when the channel is created and at the send: where the
launcher is at neither and no goroutine exists, concurrency 0 and concurrency 1 take the
same step. -/
theorem step_zero_eq_one (B S : Int) (ok : Nat → Nat → Bool) {s : State} (a : Action)
    (h1 : s.tasks = []) (h2 : s.pc ≠ .send) :
    step ⟨B, S, 0⟩ ok s a = step ⟨B, S, 1⟩ ok s a := by
  unfold step
  split
  · rfl
  cases a
  · rcases s with ⟨pc, x, y, wg, sem, tasks, halted, log⟩
    cases pc <;> simp [launcherStep] at h2 ⊢
  · rfl
  · simp [handoffStep, h2]

theorem run_zero_eq_one (B S : Int) (ok : Nat → Nat → Bool) (hBS : B ≤ 0 ∨ S ≤ 0) :
    ∀ (sched : List Action) (s : State), Reachable ⟨B, S, 1⟩ ok s →
      run ⟨B, S, 0⟩ ok sched s = run ⟨B, S, 1⟩ ok sched s
  | [], _, _ => rfl
  | a :: as, s, hs => by
    have hn := no_add_of_empty (p := ⟨B, S, 1⟩) (o := ok) hBS hs
    have he := step_zero_eq_one B S ok a hn.1 hn.2.2.1
    simp only [run, he]
    cases h : step ⟨B, S, 1⟩ ok s a with
    | none => rfl
    | some s' => exact run_zero_eq_one B S ok hBS as s' (Reachable.step a hs h)

/-- In a state without goroutines in which the launcher waits at its send on a channel
of capacity 0, nothing can move. -/
theorem stuck_at_send {p : Params} {ok : Nat → Nat → Bool} {s : State}
    (hC : p.concurrency = 0) (ht : s.tasks = []) (hpc : s.pc = .send) :
    ∀ a, step p ok s a = none := by
  intro a
  unfold step
  split
  · rfl
  cases a
  · simp [launcherStep, hpc, hC]
  · simp [taskStep, ht]
  · simp [handoffStep, ht]

/-- With concurrency 0, `B ≥ 1` and `S ≥ 1` four moves take the launcher to its first
send. -/
theorem run_to_first_send {p : Params} {ok : Nat → Nat → Bool} (hC : 0 ≤ p.concurrency)
    (hB : 1 ≤ p.batch) (hS : 1 ≤ p.size) :
    ∃ s, run p ok (launcherMoves 4) init = some s ∧ s.pc = .send := by
  have h1 : ¬ p.concurrency < 0 := by omega
  have h2 : (0 : Int) < p.batch := by omega
  have h3 : (0 : Int) < p.size := by omega
  refine ⟨{ init with pc := .send, wg := 1 }, ?_, rfl⟩
  simp [launcherMoves, List.replicate, run, step, launcherStep, init, h1, h2, h3]

/-! ## `comma` -/

theorem digitChar_isDigit : ∀ d, d < 10 → (Nat.digitChar d).isDigit = true := by
  decide

theorem toDigitsCore_isDigit :
    ∀ (fuel n : Nat) (ds : List Char), (∀ c ∈ ds, c.isDigit = true) →
      ∀ c ∈ Nat.toDigitsCore 10 fuel n ds, c.isDigit = true := by
  intro fuel
  induction fuel with
  | zero => intro n ds h; simpa [Nat.toDigitsCore] using h
  | succ f ih =>
    intro n ds h
    have hd : ∀ c ∈ Nat.digitChar (n % 10) :: ds, c.isDigit = true := by
      intro c hc
      rcases List.mem_cons.1 hc with rfl | hc
      · exact digitChar_isDigit _ (Nat.mod_lt _ (by decide))
      · exact h c hc
    simp only [Nat.toDigitsCore]
    split
    · exact hd
    · exact ih _ _ hd

theorem toDigitsCore_ne_nil :
    ∀ (fuel n : Nat) (ds : List Char), ds ≠ [] → Nat.toDigitsCore 10 fuel n ds ≠ [] := by
  intro fuel
  induction fuel with
  | zero => intro n ds h; simpa [Nat.toDigitsCore] using h
  | succ f ih =>
    intro n ds _
    simp only [Nat.toDigitsCore]
    split
    · simp
    · exact ih _ _ (by simp)

theorem toDigits_isDigit (n : Nat) : ∀ c ∈ Nat.toDigits 10 n, c.isDigit = true :=
  toDigitsCore_isDigit _ _ _ (by simp)

theorem toDigits_ne_nil (n : Nat) : Nat.toDigits 10 n ≠ [] := by
  simp only [Nat.toDigits, Nat.toDigitsCore]
  split
  · simp
  · exact toDigitsCore_ne_nil _ _ _ (by simp)

/-- What the loop of `comma` computes when it is given at least `str.length` iterations:
groups that make up `str`, the first of one to three characters, the others of three. -/
theorem commaLoop_spec :
    ∀ (fuel : Nat) (str : Str) (result : List Str), str.length ≤ fuel →
      ∃ groups : List Str, commaLoop fuel str result = groups ++ result ∧
        groups.flatten = str ∧ (str = [] → groups = []) ∧
        (str ≠ [] → ∃ g gs, groups = g :: gs ∧ 1 ≤ g.length ∧ g.length ≤ 3 ∧
          ∀ x ∈ gs, x.length = 3) := by
  intro fuel
  induction fuel with
  | zero =>
    intro str result h
    have : str = [] := List.length_eq_zero.1 (by omega)
    subst this
    exact ⟨[], rfl, rfl, fun _ => rfl, fun h => absurd rfl h⟩
  | succ f ih =>
    intro str result h
    simp only [commaLoop]
    split
    · rename_i h3
      have hlen : (str.take (str.length - 3)).length = str.length - 3 := by
        simp
      obtain ⟨groups, h1, h2, _, h5⟩ :=
        ih (str.take (str.length - 3)) (str.drop (str.length - 3) :: result) (by omega)
      have hne : str.take (str.length - 3) ≠ [] := by
        intro e
        rw [e] at hlen
        simp at hlen
        omega
      obtain ⟨g, gs, hg, hg1, hg3, hgs⟩ := h5 hne
      refine ⟨groups ++ [str.drop (str.length - 3)], ?_, ?_, ?_, ?_⟩
      · rw [h1]; simp
      · rw [List.flatten_append, h2]
        simp
      · intro e
        rw [e] at h3
        simp at h3
      · intro _
        refine ⟨g, gs ++ [str.drop (str.length - 3)], by rw [hg]; rfl, hg1, hg3, ?_⟩
        intro x hx
        rcases List.mem_append.1 hx with hx | hx
        · exact hgs x hx
        · simp only [List.mem_singleton] at hx
          subst hx
          simp
          omega
    · rename_i h3
      split
      · rename_i h0
        refine ⟨[str], rfl, by simp, ?_, ?_⟩
        · intro e
          rw [e] at h0
          simp at h0
        · intro _
          exact ⟨str, [], rfl, by omega, by omega, by simp⟩
      · rename_i h0
        have : str = [] := List.length_eq_zero.1 (by omega)
        subst this
        exact ⟨[], rfl, rfl, fun _ => rfl, fun h => absurd rfl h⟩

/-- The loop equation of `comma`: the bound on the number of iterations is never
reached. -/
theorem commaGroups_eq (str : Str) (result : List Str) :
    commaGroups str result =
      if str.length > 3 then
        commaGroups (str.take (str.length - 3)) (str.drop (str.length - 3) :: result)
      else if str.length > 0 then str :: result
      else result := by
  have key : ∀ (fuel : Nat) (s : Str) (r : List Str), s.length ≤ fuel →
      commaLoop fuel s r = commaLoop s.length s r := by
    intro fuel
    induction fuel using Nat.strong_induction_on with
    | _ fuel ih =>
      intro s r h
      cases fuel with
      | zero =>
        have : s = [] := List.length_eq_zero.1 (by omega)
        subst this
        rfl
      | succ f =>
        cases hs : s.length with
        | zero =>
          have : s = [] := List.length_eq_zero.1 hs
          subst this
          simp [commaLoop]
        | succ m =>
          simp only [commaLoop, hs]
          split
          · have hl : (s.take (m + 1 - 3)).length = m + 1 - 3 := by
              rw [List.length_take, hs]; omega
            rw [ih f (by omega) _ _ (by omega), ih m (by omega) _ _ (by omega)]
          · rfl
  unfold commaGroups
  cases hs : str.length with
  | zero => simp [commaLoop]
  | succ m =>
    simp only [commaLoop, hs]
    split
    · have hl : (str.take (m + 1 - 3)).length = m + 1 - 3 := by
        rw [List.length_take, hs]; omega
      rw [key m _ _ (by omega)]
    · rfl

theorem filter_intercalate (groups : List Str) (h : ∀ g ∈ groups, ∀ c ∈ g, c ≠ ',') :
    (List.intercalate [','] groups).filter (fun c => c != ',') = groups.flatten := by
  have hf : ∀ g ∈ groups, g.filter (fun c => c != ',') = g := by
    intro g hg
    rw [List.filter_eq_self]
    intro c hc
    simpa using h g hg c hc
  induction groups with
  | nil => rfl
  | cons g gs ih =>
    cases gs with
    | nil => simpa [List.intercalate, List.intersperse] using hf g (by simp)
    | cons g' gs' =>
      have ih' := ih (fun x hx => h x (List.mem_cons_of_mem _ hx))
        (fun x hx => hf x (List.mem_cons_of_mem _ hx))
      simp only [List.intercalate, List.intersperse, List.flatten_cons, List.filter_append] at ih' ⊢
      rw [ih', hf g (by simp)]
      simp

theorem isDigit_ne_comma {c : Char} (h : c.isDigit = true) : c ≠ ',' := by
  intro e
  rw [e] at h
  exact absurd h (by decide)

/-- `comma` on every value but the smallest `int`: the sign, then the decimal digits of the
absolute value in groups joined by commas, the first group of one to three digits, the
others of three; without the commas it is the decimal string of the value. -/
theorem comma_of_ne_minInt (n : Int) (h1 : minInt < n) (h2 : n ≤ maxInt) :
    ∃ g gs, comma n = (if n < 0 then ['-'] else []) ++ List.intercalate [','] (g :: gs) ∧
      (g :: gs).flatten = Nat.toDigits 10 n.natAbs ∧
      (∀ c ∈ Nat.toDigits 10 n.natAbs, c.isDigit = true) ∧
      1 ≤ g.length ∧ g.length ≤ 3 ∧ (∀ x ∈ gs, x.length = 3) ∧
      (comma n).filter (fun c => c != ',') = fmtD n := by
  have hm : (if n < 0 then wrapInt (-n) else n) = (n.natAbs : Int) := by
    unfold minInt at h1
    unfold maxInt at h2
    unfold wrapInt
    split <;> omega
  have hstr : fmtD (if n < 0 then wrapInt (-n) else n) = Nat.toDigits 10 n.natAbs := by
    rw [hm]
    unfold fmtD
    rw [if_neg (by omega), Int.toNat_ofNat]
  have hne := toDigits_ne_nil n.natAbs
  have hdig := toDigits_isDigit n.natAbs
  obtain ⟨groups, hg1, hg2, -, hg4⟩ :=
    commaLoop_spec (Nat.toDigits 10 n.natAbs).length (Nat.toDigits 10 n.natAbs) []
      (le_refl _)
  rw [List.append_nil] at hg1
  obtain ⟨g, gs, hgs, hl1, hl3, hrest⟩ := hg4 hne
  have hcomma : comma n = (if n < 0 then ['-'] else []) ++ List.intercalate [','] groups := by
    unfold comma
    simp only [hstr]
    split
    · rename_i hle
      have e : commaGroups (Nat.toDigits 10 n.natAbs) [] = [Nat.toDigits 10 n.natAbs] := by
        rw [commaGroups_eq, if_neg (by omega),
          if_pos (List.length_pos.2 hne)]
      have e' : groups = [Nat.toDigits 10 n.natAbs] := by
        rw [← hg1]; exact e
      rw [e']
      simp [List.intercalate, List.intersperse]
    · rw [← hg1]; rfl
  have hnc : ∀ x ∈ groups, ∀ c ∈ x, c ≠ ',' := by
    intro x hx c hc
    apply isDigit_ne_comma
    apply hdig
    rw [← hg2]
    exact List.mem_flatten.2 ⟨x, hx, hc⟩
  refine ⟨g, gs, by rw [hcomma, hgs], by rw [← hgs, hg2], hdig, hl1, hl3, hrest, ?_⟩
  rw [hcomma, List.filter_append, filter_intercalate groups hnc, hg2]
  unfold fmtD
  by_cases hneg : n < 0
  · have e : (-n).toNat = n.natAbs := by omega
    simp [hneg, e]
  · have e : n.toNat = n.natAbs := by omega
    simp [hneg, e]

theorem map_succ_range_snoc {l : List Nat} {n x : Nat}
    (h : l ++ [n] = (List.range x).map (· + 1)) :
    x = n ∧ l = (List.range (n - 1)).map (· + 1) := by
  have hlen : l.length + 1 = x := by
    have := congrArg List.length h
    simpa using this
  obtain ⟨x', rfl⟩ : ∃ x', x = x' + 1 := ⟨x - 1, by omega⟩
  rw [List.range_succ, List.map_append] at h
  have := List.append_inj' h rfl
  simp only [List.map_cons, List.map_nil, List.cons.injEq, and_true] at this
  obtain ⟨h1, h2⟩ := this
  subst h2
  exact ⟨rfl, by simpa using h1⟩

/-- Where a batch line stands in the history: the line with number `n` is printed when
the launcher leaves batch `n - 1`; before it all `S` writes of that batch have returned and
nothing of a later batch has happened. -/
theorem batchDone_position {p : Params} {ok : Nat → Nat → Bool} {s : State}
    (hs : Reachable p ok s) {l1 l2 : List Event} {n : Nat}
    (hl : s.log = l1 ++ Event.batchDone n :: l2) :
    1 ≤ n ∧ (n : Int) ≤ p.batch ∧ l1.filterMap Event.sigNum = (List.range (n - 1)).map (· + 1) ∧
    (∀ y : Nat, (y : Int) < p.size → Event.wrote (n - 1) y ∈ l1) ∧
    (∀ b y, n ≤ b → Event.launch b y ∉ l1 ∧ Event.wrote b y ∉ l1 ∧ Event.failed b y ∉ l1) := by
  have hl' : s.log = (l1 ++ [Event.batchDone n]) ++ l2 := by simp [hl]
  obtain ⟨s1, hs1, hlog1⟩ := log_prefix hs _ _ hl'
  obtain ⟨s0, hs0, hlog0⟩ := log_prefix hs1 _ _ hlog1
  have hA1 := invA_of_reachable hs1
  have hL1 := invL_of_reachable hs1
  have hA0 := invA_of_reachable hs0
  have hL0 := invL_of_reachable hs0
  have hsig1 := hL1.sig
  simp only [State.signals, hlog1, List.filterMap_append, List.filterMap_cons,
    Event.sigNum, List.filterMap_nil] at hsig1
  obtain ⟨hx1, hl1⟩ := map_succ_range_snoc hsig1
  have hn : 1 ≤ n := by
    have := congrArg List.length hsig1
    simp at this
    omega
  have hsig0 := hL0.sig
  simp only [State.signals, hlog0] at hsig0
  have hx0 : s0.x = n - 1 := by
    have := congrArg List.length (hsig0.symm.trans hl1)
    simpa using this
  refine ⟨hn, ?_, hl1, ?_, ?_⟩
  · have := hA1.x_le
    omega
  · intro y hy
    have := (earlier_batch_returned hA1 hL1 (b := n - 1) (y := y) (Or.inl (by omega)) hy).2.2
    rw [hlog1] at this
    rcases List.mem_append.1 this with h | h
    · exact h
    · simp at h
  · intro b y hb
    have hkey : (b, y) ∉ s0.tasks.map Task.key := by
      intro hm
      have := (hA0.keys b y).1 hm
      omega
    rw [← hlog0]
    exact ⟨fun h => hkey ((mem_launch_iff hL0 b y).1 h),
      fun h => hkey (hL0.wrote_key b y h).1, fun h => hkey (hL0.failed_key b y h).1⟩

/-! ## C1 -/

/-- C1, for products that fit Go's `int`: for `B ≥ 0`, `S ≥ 0`, `C ≥ 1` with
`B * S ≤ 2^63 - 1` and a sink that never fails, the run can be completed, it never
terminates abnormally and is never stuck before the launcher returns, no schedule is longer
than a fixed bound, and whenever the launcher has returned exactly `B * S` goroutines were
started (one per pair `(b, y)` with `b < B`, `y < S`), exactly `B * S` sink writes returned,
none of them failed, and the only total reported is `B * S`, in the last line printed,
`Successfully written <comma(B * S)> rows to Cassandra table.`, where `comma(B * S)`
without its commas is the decimal string of `B * S`. -/
theorem run_writes_and_reports_product (B S C : Int) (ok : Nat → Nat → Bool)
    (hB : 0 ≤ B) (hS : 0 ≤ S) (hC : 1 ≤ C) (hBS : B * S ≤ maxInt)
    (hok : ∀ b y, ok b y = true) :
    (∃ sched s, run ⟨B, S, C⟩ ok sched init = some s ∧ s.pc = .done) ∧
    (∀ s, Reachable ⟨B, S, C⟩ ok s →
      s.halted = false ∧ (s.pc ≠ .done → ∃ a s', step ⟨B, S, C⟩ ok s a = some s')) ∧
    (∀ sched s, run ⟨B, S, C⟩ ok sched init = some s →
      sched.length ≤ measure ⟨B, S, C⟩ init) ∧
    (∀ s, Reachable ⟨B, S, C⟩ ok s → s.pc = .done →
      (s.launches.length : Int) = B * S ∧ s.launches.Nodup ∧
      (∀ b y : Nat, (b, y) ∈ s.launches ↔ (b : Int) < B ∧ (y : Int) < S) ∧
      (s.sinkCalls : Int) = B * S ∧ (∀ b y, Event.failed b y ∉ s.log) ∧
      s.totals = [B * S] ∧ s.log.getLast? = some (.total (B * S)) ∧
      s.printed.getLast? = some (totalLine (B * S)) ∧
      (comma (B * S)).filter (fun c => c != ',') = fmtD (B * S)) := by
  refine ⟨exists_complete_run hC hok, ?_, ?_, ?_⟩
  · intro s hs
    have hA := invA_of_reachable hs
    have hh := not_halted_of_ok hA (by simp only; omega) hok
    exact ⟨hh, fun hd => progress hA hC hh hd⟩
  · intro sched s hr
    have := run_length_le sched (invA_init ⟨B, S, C⟩ ok) hr
    omega
  · intro s hs hd
    have hA := invA_of_reachable hs
    have hL := invL_of_reachable hs
    obtain ⟨h1, h2, _, h4, h5, h6⟩ := done_facts hA hL hd
    have hw : wrapInt (B * S) = B * S := wrapInt_of_range (Int.mul_nonneg hB hS) hBS
    simp only [hw] at h4 h5 h6
    have hpos := Int.mul_nonneg hB hS
    obtain ⟨_, _, _, _, _, _, _, _, hc⟩ :=
      comma_of_ne_minInt (B * S) (by unfold minInt; omega) hBS
    obtain ⟨hn, hm⟩ := launches_spec hA hL
    have hx := hA.x_end (Or.inr hd)
    have hy : s.ycur = 0 := by simp [State.ycur, hd, LPc.inBatch]
    refine ⟨?_, hn, ?_, ?_, no_failed_of_ok hL hok, h4, h5, by simp [h6], hc⟩
    · rw [h1]; exact toNat_mul_toNat hB hS
    · intro b y
      rw [hm b y, hx, hy]
      simp only
      omega
    · rw [h2]; exact toNat_mul_toNat hB hS

/-- C1 at `B = 3, S = 4, C = 2`: 12 goroutines, 12 sink writes, total 12, and no schedule
has more than 100 steps. -/
theorem run_writes_and_reports_product_witness :
    ((∃ sched s, run ⟨3, 4, 2⟩ okSink sched init = some s ∧ s.pc = .done) ∧
    (∀ s, Reachable ⟨3, 4, 2⟩ okSink s →
      s.halted = false ∧ (s.pc ≠ .done → ∃ a s', step ⟨3, 4, 2⟩ okSink s a = some s')) ∧
    (∀ sched s, run ⟨3, 4, 2⟩ okSink sched init = some s →
      sched.length ≤ measure ⟨3, 4, 2⟩ init) ∧
    (∀ s, Reachable ⟨3, 4, 2⟩ okSink s → s.pc = .done →
      (s.launches.length : Int) = 3 * 4 ∧ s.launches.Nodup ∧
      (∀ b y : Nat, (b, y) ∈ s.launches ↔ (b : Int) < 3 ∧ (y : Int) < 4) ∧
      (s.sinkCalls : Int) = 3 * 4 ∧ (∀ b y, Event.failed b y ∉ s.log) ∧
      s.totals = [3 * 4] ∧ s.log.getLast? = some (.total (3 * 4)) ∧
      s.printed.getLast? = some (totalLine (3 * 4)) ∧
      (comma (3 * 4)).filter (fun c => c != ',') = fmtD (3 * 4))) ∧
    measure ⟨3, 4, 2⟩ init = 100 :=
  ⟨run_writes_and_reports_product 3 4 2 okSink (by decide) (by decide) (by decide)
    (by decide) (fun _ _ => rfl), by decide⟩

/-- C1 fails when `B * S` does not fit Go's `int`: with `B = S = 2^32` and `C = 1` the run
can be completed with `2^64` sink writes, and the total it reports is 0. -/
theorem total_wraps_around :
    ∃ sched s, run ⟨4294967296, 4294967296, 1⟩ okSink sched init = some s ∧
      s.pc = .done ∧ s.halted = false ∧
      (s.sinkCalls : Int) = 4294967296 * 4294967296 ∧
      s.totals = [0] ∧ (0 : Int) ≠ 4294967296 * 4294967296 := by
  obtain ⟨sched, s, hr, hd⟩ :=
    exists_complete_run (p := ⟨4294967296, 4294967296, 1⟩) (o := okSink) (by decide)
      (fun _ _ => rfl)
  have hs := reachable_run sched Reachable.init hr
  have hA := invA_of_reachable hs
  have hL := invL_of_reachable hs
  obtain ⟨_, h2, _, h4, _, _⟩ := done_facts hA hL hd
  refine ⟨sched, s, hr, hd, not_halted_of_ok hA (by decide) (fun _ _ => rfl), ?_, ?_,
    by decide⟩
  · rw [h2]; exact toNat_mul_toNat (by decide) (by decide)
  · rw [h4]; decide

/-! ## C2 -/

/-- C2: in every reachable state of the run loop, with concurrency `C ≥ 1`, the number of
tasks whose write is in flight (started and not yet returned from `insertData`) is at most
the number of permits held (elements in the semaphore channel), which is at most `C`. -/
theorem inFlight_le_permits_le_concurrency (p : Params) (ok : Nat → Nat → Bool)
    (hC : 1 ≤ p.concurrency) (s : State) (hs : Reachable p ok s) :
    s.inFlight ≤ s.sem ∧ (s.sem : Int) ≤ p.concurrency := by
  have h := (invA_of_reachable hs).inFlight_le_sem
  exact ⟨h.1, by omega⟩

/-- C2 at `B = 3, S = 4, C = 2`, after the launcher has started two tasks: two writes are
in flight, two permits are held. -/
theorem inFlight_le_permits_witness :
    ∃ s, run ⟨3, 4, 2⟩ okSink (launcherMoves 10) init = some s ∧
      s.inFlight = 2 ∧ s.sem = 2 ∧
      (s.inFlight ≤ s.sem ∧ (s.sem : Int) ≤ (2 : Int)) :=
  ⟨_, rfl, by decide, by decide,
    inFlight_le_permits_le_concurrency ⟨3, 4, 2⟩ okSink (by decide) _
      (reachable_run (launcherMoves 10) Reachable.init rfl)⟩

/-! ## C3 -/

/-- C3: for every flag values and every sink, in every execution:
(1) when a goroutine of batch `b + 1` is started, every task `(b, y)` with `y < S` of
batch `b` has already returned from `insertData`;
(2) the same holds when a sink write of batch `b + 1` returns, successfully or not;
(3) the launcher passes `wg.Wait()` exactly when no task is in flight, and then all `S`
tasks of the current batch have returned;
(4) all tasks in flight at the same time belong to the same batch, the current one. -/
theorem batch_barrier (p : Params) (ok : Nat → Nat → Bool) :
    (∀ s, Reachable p ok s → ∀ l1 l2 b y', s.log = l1 ++ Event.launch (b + 1) y' :: l2 →
      ∀ y : Nat, (y : Int) < p.size → Event.ret b y ∈ l1) ∧
    (∀ s, Reachable p ok s → ∀ l1 l2 b y',
      (s.log = l1 ++ Event.wrote (b + 1) y' :: l2 ∨
        s.log = l1 ++ Event.failed (b + 1) y' :: l2) →
      ∀ y : Nat, (y : Int) < p.size → Event.ret b y ∈ l1) ∧
    (∀ s, Reachable p ok s → s.halted = false → s.pc = .wait →
      ((∃ s', step p ok s .launcher = some s') ↔ s.inFlight = 0) ∧
      (s.inFlight = 0 → ∀ y : Nat, (y : Int) < p.size →
        ∃ t ∈ s.tasks, t.batch = s.x ∧ t.idx = y ∧ t.pc.returned = true)) ∧
    (∀ s, Reachable p ok s → ∀ t ∈ s.tasks, ∀ u ∈ s.tasks,
      t.pc.inFlight = true → u.pc.inFlight = true → t.batch = s.x ∧ u.batch = s.x) := by
  have key : ∀ s, Reachable p ok s → ∀ l1 l2 (e : Event) (b y' : Nat),
      s.log = l1 ++ e :: l2 →
      (∀ s1, InvL p ok s1 → e ∈ s1.log → (b + 1, y') ∈ s1.tasks.map Task.key) →
      (∀ y, e ≠ Event.ret b y) →
      ∀ y : Nat, (y : Int) < p.size → Event.ret b y ∈ l1 := by
    intro s hs l1 l2 e b y' hl he hne y hy
    have hl' : s.log = (l1 ++ [e]) ++ l2 := by simp [hl]
    obtain ⟨s1, hs1, hlog1⟩ := log_prefix hs _ _ hl'
    have hA := invA_of_reachable hs1
    have hL := invL_of_reachable hs1
    have hk := he s1 hL (by simp [hlog1])
    have hx : b + 1 ≤ s1.x := by
      have := (hA.keys (b + 1) y').1 hk
      omega
    have := (earlier_batch_returned hA hL (b := b) (y := y) (Or.inl (by omega)) hy).2.1
    rw [hlog1] at this
    rcases List.mem_append.1 this with h | h
    · exact h
    · simp only [List.mem_singleton] at h
      exact absurd h.symm (hne y)
  refine ⟨?_, ?_, ?_, ?_⟩
  · intro s hs l1 l2 b y' hl
    refine key s hs l1 l2 _ b y' hl ?_ (by simp)
    intro s1 hL hm
    rw [← hL.launch]
    simp only [State.launches, List.mem_filterMap]
    exact ⟨_, hm, rfl⟩
  · intro s hs l1 l2 b y' hl
    rcases hl with hl | hl
    · exact key s hs l1 l2 _ b y' hl (fun s1 hL hm => (hL.wrote_key _ _ hm).1) (by simp)
    · exact key s hs l1 l2 _ b y' hl (fun s1 hL hm => (hL.failed_key _ _ hm).1) (by simp)
  · intro s hs hh hpc
    have hA := invA_of_reachable hs
    have hwg := hA.wg_eq
    simp only [hpc, reduceCtorEq, or_self, if_false, add_zero] at hwg
    constructor
    · simp only [step, hh, Bool.false_eq_true, if_false, launcherStep, hpc]
      constructor
      · rintro ⟨s', h⟩
        split at h
        · omega
        · simp at h
      · intro h0
        rw [if_pos (by omega)]
        exact ⟨_, rfl⟩
    · intro h0 y hy
      have hk : (s.x, y) ∈ s.tasks.map Task.key := by
        apply (hA.keys s.x y).2
        right
        have := hA.y_end (Or.inl hpc)
        simp only [State.ycur, hpc, LPc.inBatch, if_true, true_and]
        omega
      obtain ⟨t, ht, htk⟩ := List.mem_map.1 hk
      simp only [Task.key, Prod.mk.injEq] at htk
      exact ⟨t, ht, htk.1, htk.2,
        TPc.returned_of_not_inFlight (countP_eq_zero_imp h0 t ht)⟩
  · intro s hs t ht u hu hft hfu
    have hA := invA_of_reachable hs
    exact ⟨hA.inFlight_batch t ht hft, hA.inFlight_batch u hu hfu⟩

/-- C3 on a concrete execution with `B = 2, S = 2, C = 2`: both tasks of batch 0 run to
their end, the launcher passes the barrier and starts the first task of batch 1; in the
history both returns of batch 0 come before that start. -/
theorem batch_barrier_witness :
    ∃ s l1, run ⟨2, 2, 2⟩ okSink
        (launcherMoves 10 ++ taskRuns 0 ++ taskRuns 1 ++ launcherMoves 8) init = some s ∧
      s.log = l1 ++ Event.launch 1 0 :: [] ∧
      Event.ret 0 0 ∈ l1 ∧ Event.ret 0 1 ∈ l1 := by
  have hr : run ⟨2, 2, 2⟩ okSink
      (launcherMoves 10 ++ taskRuns 0 ++ taskRuns 1 ++ launcherMoves 8) init = some
        { pc := .loopY, x := 1, y := 1, wg := 1, sem := 1,
          tasks := [⟨0, 0, .exited⟩, ⟨0, 1, .exited⟩, ⟨1, 0, .exec⟩], halted := false,
          log := [.launch 0 0, .launch 0 1, .wrote 0 0, .ret 0 0, .wrote 0 1, .ret 0 1,
            .batchDone 1] ++ [.launch 1 0] } := by decide
  have h := (batch_barrier ⟨2, 2, 2⟩ okSink).1 _ (reachable_run _ Reachable.init hr)
    [.launch 0 0, .launch 0 1, .wrote 0 0, .ret 0 0, .wrote 0 1, .ret 0 1, .batchDone 1]
    [] 0 0 rfl
  exact ⟨_, _, hr, rfl, h 0 (by decide), h 1 (by decide)⟩

/-! ## C4 -/

/-- C4: for every `B`, `S`, `C ≥ 1` and every sink that rejects the write of some task
`(k, y0)` with `k < B`, `y0 < S`: in every reachable state the launcher is in a batch
`x ≤ k` and has not returned, no goroutine of a batch after `k` has been started and no
sink write of such a batch has returned, no batch line with a number above `k` (the line of
batch `k` has number `k + 1`) and no final total has been printed; the process is never
stuck before it terminates, every schedule is bounded, and some schedule ends in the
abnormal termination of the process. -/
theorem failure_halts_run (p : Params) (ok : Nat → Nat → Bool) (k y0 : Nat)
    (hC : 1 ≤ p.concurrency) (hk : (k : Int) < p.batch) (hy : (y0 : Int) < p.size)
    (hfail : ok k y0 = false) :
    (∀ s, Reachable p ok s →
      s.x ≤ k ∧ s.pc ≠ .done ∧ s.pc ≠ .printTotal ∧
      (∀ t ∈ s.tasks, t.batch ≤ k) ∧
      (∀ b y, k < b → Event.launch b y ∉ s.log ∧ Event.wrote b y ∉ s.log ∧
        Event.failed b y ∉ s.log) ∧
      (∀ n, k < n → Event.batchDone n ∉ s.log) ∧
      (∀ v, Event.total v ∉ s.log) ∧
      (s.halted = false → ∃ a s', step p ok s a = some s')) ∧
    (∀ sched s, run p ok sched init = some s → sched.length ≤ measure p init) ∧
    (∃ sched s, run p ok sched init = some s ∧ s.halted = true) := by
  have main : ∀ s, Reachable p ok s → s.x ≤ k ∧ s.pc ≠ .done ∧ s.pc ≠ .printTotal := by
    intro s hs
    have hA := invA_of_reachable hs
    have hx := (x_le_of_fail hA hy hfail).1
    refine ⟨hx, ?_, ?_⟩
    · intro hd
      have := hA.x_end (Or.inr hd)
      omega
    · intro hd
      have := hA.x_end (Or.inl hd)
      omega
  refine ⟨?_, ?_, ?_⟩
  · intro s hs
    have hA := invA_of_reachable hs
    have hL := invL_of_reachable hs
    obtain ⟨hx, hd, hpt⟩ := main s hs
    refine ⟨hx, hd, hpt, ?_, ?_, ?_, ?_, ?_⟩
    · intro t ht
      have := hA.batch_le t ht
      omega
    · intro b y hb
      have hkey : (b, y) ∉ s.tasks.map Task.key := by
        intro hm
        have := (hA.keys b y).1 hm
        omega
      exact ⟨fun h => hkey ((mem_launch_iff hL b y).1 h),
        fun h => hkey (hL.wrote_key b y h).1, fun h => hkey (hL.failed_key b y h).1⟩
    · intro n hn hm
      have := (mem_signals_iff hL n).1 hm
      omega
    · intro v hm
      exact hd ((mem_total_iff hL v).1 hm).1
    · intro hh
      exact progress hA hC hh hd
  · intro sched s hr
    have := run_length_le sched (invA_init p ok) hr
    omega
  · obtain ⟨sched, s, hr, hfin⟩ :=
      exists_final_run (o := ok) hC (measure p init) init (invA_init p ok) (le_refl _)
    refine ⟨sched, s, hr, ?_⟩
    rcases hfin with hd | hh
    · exact absurd hd (main s (reachable_run sched Reachable.init hr)).2.1
    · exact hh

/-- C4 at `B = 5, S = 3, C = 2` with the write of task `(1, 2)` rejected: the theorem
applies, and in the execution shown the process terminates while the launcher is in batch
1, after one batch line. -/
theorem failure_halts_run_witness :
    (∀ s, Reachable ⟨5, 3, 2⟩ (failAt 1 2) s →
      s.x ≤ 1 ∧ s.pc ≠ .done ∧ s.pc ≠ .printTotal ∧
      (∀ t ∈ s.tasks, t.batch ≤ 1) ∧
      (∀ b y, 1 < b → Event.launch b y ∉ s.log ∧ Event.wrote b y ∉ s.log ∧
        Event.failed b y ∉ s.log) ∧
      (∀ n, 1 < n → Event.batchDone n ∉ s.log) ∧
      (∀ v, Event.total v ∉ s.log) ∧
      (s.halted = false → ∃ a s', step ⟨5, 3, 2⟩ (failAt 1 2) s a = some s')) ∧
    (∃ s, run ⟨5, 3, 2⟩ (failAt 1 2)
        (launcherMoves 10 ++ taskRuns 0 ++ launcherMoves 4 ++ taskRuns 1 ++ taskRuns 2 ++
          launcherMoves 3 ++ launcherMoves 9 ++ taskRuns 3 ++ launcherMoves 4 ++
          [.task 5, .task 5]) init = some s ∧
      s.halted = true ∧ s.x = 1 ∧ s.signals = [1] ∧ s.totals = []) :=
  ⟨(failure_halts_run ⟨5, 3, 2⟩ (failAt 1 2) 1 2 (by decide) (by decide) (by decide) rfl).1,
    ⟨_, rfl, by decide, by decide, by decide, by decide⟩⟩

/-! ## C5 -/

/-- C5, as far as it holds: for a concurrency `C ≤ 0` no goroutine is ever started and no
sink write is made.  For `C < 0` the creation of the channel panics, so the run fails
before anything else happens.  For `C = 0` the run is not rejected: the process never
terminates abnormally; with `B ≥ 1` and `S ≥ 1` the launcher reaches its first send on the
channel of capacity 0 and nothing can move from there, so nothing is ever printed and the
launcher never returns; with `B ≤ 0` or `S ≤ 0` every schedule does exactly what it does
for `C = 1`. -/
theorem nonpositive_concurrency (p : Params) (ok : Nat → Nat → Bool)
    (hC : p.concurrency ≤ 0) :
    (∀ s, Reachable p ok s →
      s.tasks = [] ∧ s.sem = 0 ∧ s.launches = [] ∧ s.sinkCalls = 0) ∧
    (p.concurrency < 0 →
      step p ok init .launcher = some { init with halted := true } ∧
      ∀ s, Reachable p ok s → s.pc = .mkChan ∧ s.log = []) ∧
    (p.concurrency = 0 →
      (∀ s, Reachable p ok s → s.halted = false) ∧
      (1 ≤ p.batch → 1 ≤ p.size →
        (∀ s, Reachable p ok s →
          s.pc ≠ .done ∧ s.log = [] ∧ (s.pc = .send → ∀ a, step p ok s a = none)) ∧
        (∃ s, run p ok (launcherMoves 4) init = some s ∧ s.pc = .send)) ∧
      (p.batch ≤ 0 ∨ p.size ≤ 0 →
        ∀ sched, run p ok sched init = run { p with concurrency := 1 } ok sched init)) := by
  refine ⟨?_, ?_, ?_⟩
  · intro s hs
    have hn := no_task_of_nonpos (o := ok) hC hs
    have hL := invL_of_reachable hs
    refine ⟨hn.1, hn.2.1, ?_, ?_⟩
    · rw [hL.launch, hn.1]; rfl
    · rw [hL.calls, hn.1]; rfl
  · intro hneg
    refine ⟨?_, fun s hs => (no_task_of_nonpos (o := ok) hC hs).2.2.2.1 hneg⟩
    simp [step, init, launcherStep, hneg]
  · intro h0
    refine ⟨fun s hs => (no_task_of_nonpos (o := ok) hC hs).2.2.2.2 h0, ?_, ?_⟩
    · intro hB hS
      refine ⟨?_, run_to_first_send (by omega) hB hS⟩
      intro s hs
      have hz := stuck_of_zero (o := ok) h0 hB hS hs
      have hn := no_task_of_nonpos (o := ok) hC hs
      refine ⟨?_, hz.1, fun hpc => stuck_at_send h0 hn.1 hpc⟩
      rcases hz.2.2 with h | h | ⟨h | h | h, _⟩ <;> simp [h]
    · intro hBS sched
      rcases p with ⟨B, S, C⟩
      simp only at h0 hBS
      subst h0
      exact run_zero_eq_one B S ok hBS sched init Reachable.init

/-- C5 at `C = -1` and at `C = 0` with `B = S = 1`. -/
theorem nonpositive_concurrency_witness :
    (step ⟨1, 1, -1⟩ okSink init .launcher = some { init with halted := true } ∧
      ∀ s, Reachable ⟨1, 1, -1⟩ okSink s → s.pc = .mkChan ∧ s.log = []) ∧
    ((∀ s, Reachable ⟨1, 1, 0⟩ okSink s →
        s.pc ≠ .done ∧ s.log = [] ∧ (s.pc = .send → ∀ a, step ⟨1, 1, 0⟩ okSink s a = none)) ∧
      (∃ s, run ⟨1, 1, 0⟩ okSink (launcherMoves 4) init = some s ∧ s.pc = .send)) :=
  ⟨(nonpositive_concurrency ⟨1, 1, -1⟩ okSink (by decide)).2.1 (by decide),
    ((nonpositive_concurrency ⟨1, 1, 0⟩ okSink (by decide)).2.2 rfl).2.1 (by decide)
      (by decide)⟩

/-- C5 fails at `C = 0`: with `B = S = 1` the run is not rejected (the process never
terminates abnormally), it goes on with a channel of capacity 0, reaches the launcher's
first send and is stuck there for ever, with no goroutine started; whereas with `C = 1`
the run can be completed with one sink write. -/
theorem zero_concurrency_blocks :
    (∀ s, Reachable ⟨1, 1, 0⟩ okSink s → s.halted = false ∧ s.pc ≠ .done ∧ s.tasks = []) ∧
    (∃ s, run ⟨1, 1, 0⟩ okSink (launcherMoves 4) init = some s ∧ s.pc = .send ∧
      s.sem = 0 ∧ ∀ a, step ⟨1, 1, 0⟩ okSink s a = none) ∧
    (∃ s, run ⟨1, 1, 1⟩ okSink (launcherMoves 6 ++ taskRuns 0 ++ launcherMoves 5) init
        = some s ∧ s.pc = .done ∧ s.sinkCalls = 1) := by
  refine ⟨?_, ?_, ⟨_, rfl, by decide, by decide⟩⟩
  · intro s hs
    have hn := no_task_of_nonpos (o := okSink) (p := ⟨1, 1, 0⟩) (by decide) hs
    have hz := stuck_of_zero (o := okSink) (p := ⟨1, 1, 0⟩) rfl (by decide) (by decide) hs
    refine ⟨hn.2.2.2.2 rfl, ?_, hn.1⟩
    rcases hz.2.2 with h | h | ⟨h | h | h, _⟩ <;> simp [h]
  · refine ⟨_, rfl, rfl, rfl, ?_⟩
    exact stuck_at_send rfl rfl rfl

/-! ## C6 -/

/-- C6, with the signal the code really emits: for `B ≥ 0`, `S ≥ 0`, `C ≥ 1` and a sink that
never fails, the run can be completed, never terminates abnormally, is never stuck before
the launcher returns and every schedule is bounded; when the launcher has returned exactly
`B` batch lines have been printed, numbered `1, 2, ..., B` in this order, each being the
text `Batch no.<n> completed.` with the batch number `n` and nothing else, followed by one
final line with the total `B * S` (as a 64-bit `int`), which is the last event, and
`B * S` sink writes have returned; and in every execution the line with number `n` comes
after all `S` writes of batch `n - 1` and before any goroutine of a later batch is started
or any write of a later batch returns. -/
theorem batch_lines_in_order (B S C : Int) (ok : Nat → Nat → Bool)
    (hB : 0 ≤ B) (hS : 0 ≤ S) (hC : 1 ≤ C) (hok : ∀ b y, ok b y = true) :
    (∃ sched s, run ⟨B, S, C⟩ ok sched init = some s ∧ s.pc = .done) ∧
    (∀ s, Reachable ⟨B, S, C⟩ ok s →
      s.halted = false ∧ (s.pc ≠ .done → ∃ a s', step ⟨B, S, C⟩ ok s a = some s')) ∧
    (∀ sched s, run ⟨B, S, C⟩ ok sched init = some s →
      sched.length ≤ measure ⟨B, S, C⟩ init) ∧
    (∀ s, Reachable ⟨B, S, C⟩ ok s → s.pc = .done →
      s.signals = (List.range B.toNat).map (· + 1) ∧
      s.printed = (List.range B.toNat).map (fun i => batchLine ((i + 1 : Nat) : Int)) ++
        [totalLine (wrapInt (B * S))] ∧
      s.totals = [wrapInt (B * S)] ∧
      s.log.getLast? = some (.total (wrapInt (B * S))) ∧
      (s.sinkCalls : Int) = B * S) ∧
    (∀ s, Reachable ⟨B, S, C⟩ ok s → ∀ l1 l2 n, s.log = l1 ++ Event.batchDone n :: l2 →
      1 ≤ n ∧ (n : Int) ≤ B ∧
      l1.filterMap Event.sigNum = (List.range (n - 1)).map (· + 1) ∧
      (∀ y : Nat, (y : Int) < S → Event.wrote (n - 1) y ∈ l1) ∧
      (∀ b y, n ≤ b →
        Event.launch b y ∉ l1 ∧ Event.wrote b y ∉ l1 ∧ Event.failed b y ∉ l1)) := by
  refine ⟨exists_complete_run hC hok, ?_, ?_, ?_, ?_⟩
  · intro s hs
    have hA := invA_of_reachable hs
    have hh := not_halted_of_ok hA (by simp only; omega) hok
    exact ⟨hh, fun hd => progress hA hC hh hd⟩
  · intro sched s hr
    have := run_length_le sched (invA_init ⟨B, S, C⟩ ok) hr
    omega
  · intro s hs hd
    obtain ⟨_, h2, h3, h4, h5, h6⟩ := done_facts (invA_of_reachable hs) (invL_of_reachable hs) hd
    refine ⟨h3, h6, h4, h5, ?_⟩
    rw [h2]; exact toNat_mul_toNat hB hS
  · intro s hs l1 l2 n hl
    exact batchDone_position hs hl

/-- C6 at `B = 3, S = 4, C = 2`, on a complete execution: 12 sink writes, the lines
`Batch no.1 completed.`, `Batch no.2 completed.`, `Batch no.3 completed.` and then
`Successfully written 12 rows to Cassandra table.`. -/
theorem batch_lines_in_order_witness :
    ∃ s, run ⟨3, 4, 2⟩ okSink demoSchedule init = some s ∧ s.pc = .done ∧
      s.signals = [1, 2, 3] ∧ s.totals = [12] ∧ (s.sinkCalls : Int) = 12 ∧
      s.printed.map String.mk = ["Batch no.1 completed.\n", "Batch no.2 completed.\n",
        "Batch no.3 completed.\n", "Successfully written 12 rows to Cassandra table.\n"] := by
  have hr : ∃ s, run ⟨3, 4, 2⟩ okSink demoSchedule init = some s ∧ s.pc = .done :=
    ⟨_, rfl, by decide⟩
  obtain ⟨s, hr, hd⟩ := hr
  have h := (batch_lines_in_order 3 4 2 okSink (by decide) (by decide) (by decide)
    (fun _ _ => rfl)).2.2.2.1 s (reachable_run demoSchedule Reachable.init hr) hd
  obtain ⟨h1, h2, h3, _, h5⟩ := h
  refine ⟨s, hr, hd, ?_, ?_, ?_, ?_⟩
  · rw [h1]; decide
  · rw [h3]; decide
  · rw [h5]; decide
  · rw [h2]; decide

/-- C6 as stated fails: the batch-completion signal does not carry the batch size.  Two
complete runs, one with batches of size 1 and one with batches of size 2, emit the same
signal, the line `Batch no.1 completed.`; so no function reads the batch size off the
signal. -/
theorem batch_line_without_size :
    ∃ s1 s2,
      run ⟨1, 1, 1⟩ okSink (launcherMoves 6 ++ taskRuns 0 ++ launcherMoves 5) init = some s1 ∧
      s1.pc = .done ∧
      run ⟨1, 2, 1⟩ okSink
        (launcherMoves 6 ++ taskRuns 0 ++ launcherMoves 4 ++ taskRuns 1 ++ launcherMoves 5)
        init = some s2 ∧
      s2.pc = .done ∧ s1.sinkCalls = 1 ∧ s2.sinkCalls = 2 ∧
      s1.signalLines.map String.mk = ["Batch no.1 completed.\n"] ∧
      s2.signalLines = s1.signalLines ∧
      ¬ ∃ size : Str → Int,
        (∀ l ∈ s1.signalLines, size l = 1) ∧ (∀ l ∈ s2.signalLines, size l = 2) := by
  refine ⟨_, _, rfl, by decide, rfl, by decide, by decide, by decide, by decide, by decide, ?_⟩
  rintro ⟨size, h1, h2⟩
  have e1 := h1 (batchLine 1) (by decide)
  have e2 := h2 (batchLine 1) (by decide)
  omega

/-! ## C8 -/

/-- C8, as far as it holds: for a concurrency `C` larger than the batch size `S`, in every
reachable state in which the launcher is about to acquire a permit, fewer than `S` (so
fewer than `C`) tasks are in flight; in the first batch fewer than `C` permits are held, so
the acquire succeeds at once; and whenever all `C` permits are held, one of them is held by
a goroutine that has already returned from `insertData` and can release it. -/
theorem acquire_when_concurrency_exceeds_size (p : Params) (ok : Nat → Nat → Bool)
    (hS : p.size < p.concurrency) (s : State) (hs : Reachable p ok s) (hpc : s.pc = .send) :
    (s.inFlight : Int) < p.size ∧
    (s.x = 0 → (s.sem : Int) < p.concurrency ∧
      (s.halted = false → ∃ s', step p ok s .launcher = some s')) ∧
    (¬ (s.sem : Int) < p.concurrency →
      ∃ i t, s.tasks[i]? = some t ∧ t.pc = .recv ∧
        (s.halted = false → ∃ s', step p ok s (.task i) = some s')) := by
  have hA := invA_of_reachable hs
  have hy := hA.y_lt (Or.inr (Or.inl hpc))
  have hcur := hA.cur
  have hyc : s.ycur = s.y := by simp [State.ycur, hpc, LPc.inBatch]
  have hsem := hA.sem_eq
  simp only [hpc, reduceCtorEq, if_false, add_zero] at hsem
  have hfl : s.inFlight ≤ s.y := by
    rw [← hyc, ← hcur]
    apply List.countP_mono_left
    intro t ht hf
    simpa using hA.inFlight_batch t ht hf
  refine ⟨by omega, ?_, ?_⟩
  · intro hx
    have hlen := hA.len
    have hh : s.holders ≤ s.tasks.length := List.countP_le_length _
    rw [hx, hyc] at hlen
    have hlt : (s.sem : Int) < p.concurrency := by omega
    refine ⟨hlt, fun hh => ?_⟩
    simp only [step, hh, Bool.false_eq_true, if_false, launcherStep, hpc, if_pos hlt]
    exact ⟨_, rfl⟩
  · intro hfull
    have hlt : s.tasks.countP (fun t => t.pc.inFlight) < s.tasks.countP (fun t => t.pc.holds) := by
      have h1 : s.tasks.countP (fun t => t.pc.holds) = s.sem := hsem.symm
      have h2 : s.tasks.countP (fun t => t.pc.inFlight) = s.inFlight := rfl
      omega
    obtain ⟨t, ht, hh, hf⟩ := exists_of_countP_lt hlt
    obtain ⟨i, hi⟩ := List.mem_iff_getElem?.1 ht
    have hr : t.pc = .recv := by
      cases hc : t.pc <;> simp [hc, TPc.holds, TPc.inFlight] at hh hf ⊢
    refine ⟨i, t, hi, hr, fun hhalt => ?_⟩
    have hpos : 0 < s.sem := by
      have := countP_pos_of_getElem? (q := fun t => t.pc.holds) hi hh
      simp only [State.holders] at hsem
      omega
    obtain ⟨s', hs'⟩ := taskStep_enabled (o := ok) hi hh (fun _ => hpos)
    exact ⟨s', by simp [step, hhalt, hs']⟩

/-- C8 at `B = 3, S = 1, C = 2`, first acquire of the run: no permit is held. -/
theorem acquire_when_concurrency_exceeds_size_witness :
    ∃ s, run ⟨3, 1, 2⟩ okSink (launcherMoves 4) init = some s ∧ s.pc = .send ∧
      ((s.inFlight : Int) < 1 ∧
      (s.x = 0 → (s.sem : Int) < 2 ∧
        (s.halted = false → ∃ s', step ⟨3, 1, 2⟩ okSink s .launcher = some s')) ∧
      (¬ (s.sem : Int) < 2 →
        ∃ i t, s.tasks[i]? = some t ∧ t.pc = .recv ∧
          (s.halted = false → ∃ s', step ⟨3, 1, 2⟩ okSink s (.task i) = some s'))) :=
  ⟨_, rfl, rfl,
    acquire_when_concurrency_exceeds_size ⟨3, 1, 2⟩ okSink (by decide) _
      (reachable_run (launcherMoves 4) Reachable.init rfl) rfl⟩

/-- C8 fails in later batches: with `B = 3, S = 1, C = 2` (so `C > S`) the goroutines of
batches 0 and 1 can both still hold their permits, after their `wg.Done()`, when the
launcher wants to acquire a permit for batch 2; the channel is full and the launcher is
blocked. -/
theorem launcher_blocks_in_later_batch :
    ∃ s, run ⟨3, 1, 2⟩ okSink
        (launcherMoves 6 ++ [.task 0, .task 0] ++ launcherMoves 8 ++ [.task 1, .task 1] ++
          launcherMoves 6) init = some s ∧
      s.pc = .send ∧ s.x = 2 ∧ s.sem = 2 ∧ s.halted = false ∧
      ((1 : Int) < 2) ∧ ¬ ((s.sem : Int) < 2) ∧
      step ⟨3, 1, 2⟩ okSink s .launcher = none :=
  ⟨_, rfl, by decide, by decide, by decide, by decide, by decide, by decide, by decide⟩

/-! ## The config file -/

theorem cutColon_eq_none {line : Str} (h : ':' ∉ line) : cutColon line = none := by
  induction line with
  | nil => rfl
  | cons c cs ih =>
    simp only [List.mem_cons, not_or] at h
    have hc : c ≠ ':' := fun e => h.1 e.symm
    simp [cutColon, hc, ih h.2]

theorem cutColon_of_mem {line : Str} (h : ':' ∈ line) :
    cutColon line =
      some (line.takeWhile (fun c => c != ':'), (line.dropWhile (fun c => c != ':')).tail) := by
  induction line with
  | nil => simp at h
  | cons c cs ih =>
    by_cases hc : c = ':'
    · subst hc
      simp [cutColon]
    · have hm : ':' ∈ cs := by
        rcases List.mem_cons.1 h with h | h
        · exact absurd h.symm hc
        · exact h
      simp [cutColon, hc, ih hm]

theorem parseLine_of_not_mem {line : Str} (h : ':' ∉ line) : parseLine line = ([], []) := by
  simp [parseLine, splitN2, cutColon_eq_none h]

theorem parseLine_of_mem {line : Str} (h : ':' ∈ line) :
    parseLine line = (trimSpace (line.takeWhile (fun c => c != ':')),
      trimSpace (line.dropWhile (fun c => c != ':')).tail) := by
  simp [parseLine, splitN2, cutColon_of_mem h]

theorem isConfigLine_iff (line : Str) :
    isConfigLine line = true ↔ (parseLine line).1 ∈ configKeys := by
  by_cases h : ':' ∈ line
  · simp [isConfigLine, h, parseLine_of_mem h]
  · simp [isConfigLine, h, parseLine_of_not_mem h, configKeys]

theorem applyLine_of_not_configLine (cfg : Config) {line : Str}
    (h : isConfigLine line = false) : applyLine cfg line = cfg := by
  have hk : (parseLine line).1 ∉ configKeys := by
    intro hm
    rw [(isConfigLine_iff line).2 hm] at h
    simp at h
  simp only [configKeys, List.mem_cons, List.mem_singleton, List.not_mem_nil, or_false,
    not_or] at hk
  obtain ⟨h1, h2, h3⟩ := hk
  unfold applyLine
  simp only [if_neg h1, if_neg h2, if_neg h3]

theorem foldl_applyLine_filter (lines : List Str) :
    ∀ cfg : Config, lines.foldl applyLine cfg = (lines.filter isConfigLine).foldl applyLine cfg := by
  induction lines with
  | nil => intro cfg; rfl
  | cons l ls ih =>
    intro cfg
    cases h : isConfigLine l
    · simp [List.filter, h, applyLine_of_not_configLine cfg h, ih]
    · simp [List.filter, h, ih]

theorem splitLinesAux_line (l : Str) (hl : '\n' ∉ l) :
    ∀ (cur rest : Str), splitLinesAux cur (l ++ '\n' :: rest) =
      (cur.reverse ++ l) :: splitLinesAux [] rest := by
  induction l with
  | nil => intro cur rest; simp [splitLinesAux]
  | cons c cs ih =>
    intro cur rest
    simp only [List.mem_cons, not_or] at hl
    have hc : c ≠ '\n' := fun e => hl.1 e.symm
    simp [splitLinesAux, hc, ih hl.2]

theorem unlines_cons (l : Str) (ls : List Str) :
    unlines (l :: ls) = l ++ '\n' :: unlines ls := by
  simp [unlines]

theorem splitLines_unlines (lines : List Str) (h : ∀ l ∈ lines, '\n' ∉ l) :
    splitLines (unlines lines) = lines := by
  induction lines with
  | nil => simp [splitLines, unlines, splitLinesAux]
  | cons l ls ih =>
    have h1 := h l (List.mem_cons_self _ _)
    have h2 : ∀ x ∈ ls, '\n' ∉ x := fun x hx => h x (List.mem_cons_of_mem _ hx)
    have := ih h2
    rw [splitLines] at this ⊢
    rw [unlines_cons, splitLinesAux_line l h1, this]
    simp

theorem scanTokens_of_short (lines : List Str)
    (h : ∀ l ∈ lines, byteLen l < maxScanTokenSize) :
    scanTokens lines = (lines.map dropCR, none) := by
  induction lines with
  | nil => rfl
  | cons l ls ih =>
    have h1 := h l (List.mem_cons_self _ _)
    have h2 : ∀ x ∈ ls, byteLen x < maxScanTokenSize :=
      fun x hx => h x (List.mem_cons_of_mem _ hx)
    rw [scanTokens, if_neg (Nat.not_le.mpr h1), ih h2]
    rfl

theorem byteLen_append (a b : Str) : byteLen (a ++ b) = byteLen a + byteLen b := by
  simp [byteLen]

theorem byteLen_replicate (n : Nat) (c : Char) :
    byteLen (List.replicate n c) = n * c.utf8Size := by
  simp [byteLen, List.map_replicate, List.sum_replicate]

theorem takeWhile_append_of_mem (p : Char → Bool) (a b : Str) (h : ∃ c ∈ a, p c = false) :
    (a ++ b).takeWhile p = a.takeWhile p := by
  induction a with
  | nil => simp at h
  | cons x xs ih =>
    by_cases hx : p x = true
    · simp only [List.cons_append, List.takeWhile_cons, hx, if_true]
      congr 1
      apply ih
      obtain ⟨c, hc, hpc⟩ := h
      rcases List.mem_cons.mp hc with e | e
      · subst e; simp [hx] at hpc
      · exact ⟨c, e, hpc⟩
    · simp [List.takeWhile_cons, hx]

theorem isConfigLine_dropCR (line : Str) : isConfigLine (dropCR line) = isConfigLine line := by
  unfold dropCR
  split
  · rename_i hl
    have hne : line ≠ [] := by
      intro e; subst e; simp at hl
    have e : line = line.dropLast ++ ['\r'] := by
      have := List.dropLast_append_getLast hne
      rw [List.getLast?_eq_getLast _ hne] at hl
      simp only [Option.some.injEq] at hl
      rw [hl] at this
      exact this.symm
    generalize line.dropLast = a at e
    subst e
    by_cases hc : ':' ∈ a
    · have : (a ++ ['\r']).takeWhile (fun c => c != ':') = a.takeWhile (fun c => c != ':') :=
        takeWhile_append_of_mem _ _ _ ⟨':', hc, by simp⟩
      simp [isConfigLine, this, hc]
    · simp [isConfigLine, hc]
  · rfl

theorem foldl_scanTokens_insert (pre post : List Str) (line : Str)
    (hl : byteLen line < maxScanTokenSize) (hc : isConfigLine line = false) :
    ∀ cfg, ((scanTokens (pre ++ line :: post)).1.foldl applyLine cfg,
        (scanTokens (pre ++ line :: post)).2) =
      ((scanTokens (pre ++ post)).1.foldl applyLine cfg, (scanTokens (pre ++ post)).2) := by
  induction pre with
  | nil =>
    intro cfg
    have hd : isConfigLine (dropCR line) = false := by rw [isConfigLine_dropCR, hc]
    simp only [List.nil_append, scanTokens, if_neg (Nat.not_le.mpr hl), List.foldl_cons,
      applyLine_of_not_configLine cfg hd]
  | cons a pre ih =>
    intro cfg
    by_cases ha : maxScanTokenSize ≤ byteLen a
    · simp only [List.cons_append, scanTokens, if_pos ha]
    · simp only [List.cons_append, scanTokens, if_neg ha, List.foldl_cons]
      exact ih _

theorem scanTokens_err_eq_none_iff (lines : List Str) :
    (scanTokens lines).2 = none ↔ ∀ l ∈ lines, byteLen l < maxScanTokenSize := by
  induction lines with
  | nil => simp [scanTokens]
  | cons l ls ih =>
    by_cases hl : maxScanTokenSize ≤ byteLen l
    · simp [scanTokens, hl]
    · simp only [scanTokens, if_neg hl, ih, List.mem_cons, forall_eq_or_imp]
      exact ⟨fun h => ⟨Nat.not_le.mp hl, h⟩, fun h => h.2⟩

/-- A first line of `maxScanTokenSize` bytes or more: nothing is read, and the scanner's
error is returned. -/
theorem readConfig_tooLong_first (l rest : Str) (hn : '\n' ∉ l)
    (hl : maxScanTokenSize ≤ byteLen l) :
    readConfig (.present (l ++ '\n' :: rest)) = (Config.zero, some .tooLong) := by
  simp only [readConfig, scan, splitLines, splitLinesAux_line l hn, List.reverse_nil,
    List.nil_append, scanTokens, if_pos hl, readConfigLines, List.foldl_nil]

theorem not_mem_replicate {n : Nat} {a c : Char} (h : a ≠ c) : a ∉ List.replicate n c :=
  fun hm => h (List.eq_of_mem_replicate hm)
/-! ## C7 -/

/-- C7: the claim fails at a line the scanner cannot hold.  A line of 65536 letters `x`
has no colon, so `parseLine` returns the empty key for it.  The file with the one line
`host: a` is read as `Config{Host: "a"}` without error; with the long line inserted before
it, `readConfig` returns the zero Config and `bufio.ErrTooLong`: the Config has changed and
an error is caused. -/
theorem long_line_breaks_readConfig :
    ':' ∉ List.replicate 65536 'x' ∧
    parseLine (List.replicate 65536 'x') = ([], []) ∧
    isConfigLine (List.replicate 65536 'x') = false ∧
    readConfig (.present (unlines ["host: a".toList])) =
      ({ Host := "a".toList, Port := [], Keyspace := [] }, none) ∧
    readConfig (.present (unlines [List.replicate 65536 'x', "host: a".toList])) =
      (Config.zero, some .tooLong) ∧
    readConfig (.present (unlines [List.replicate 65536 'x', "host: a".toList])) ≠
      readConfig (.present (unlines ["host: a".toList])) := by
  have hc : ':' ∉ List.replicate 65536 'x' := not_mem_replicate (by decide)
  have hr : readConfig (.present (unlines [List.replicate 65536 'x', "host: a".toList])) =
      (Config.zero, some .tooLong) := by
    rw [unlines_cons]
    apply readConfig_tooLong_first _ _ (not_mem_replicate (by decide))
    rw [byteLen_replicate]
    decide
  refine ⟨hc, parseLine_of_not_mem hc, ?_, by decide, hr, ?_⟩
  · simp only [isConfigLine, hc, decide_False, Bool.false_and]
  · rw [hr]
    decide

/-- C7, amended by the scanner's limit: a file is a list of lines, none containing a
newline, each written with a newline after it.
(1) When every line is shorter than `maxScanTokenSize` = 65536 bytes, `readConfig` returns
no error and the config is the one read from the file of the config lines alone: the lines
that contain a colon and whose text before the first colon, trimmed, is exactly `host`,
`port` or `keyspace`.
(2) A line shorter than 65536 bytes that is not a config line can be inserted or deleted
anywhere in any file without changing the config or the error returned.
(3) A line without colon makes `parseLine` return the empty key and is not a config line.
(4) Being a config line is the same as `parseLine` returning one of the three keys.
(5) The carriage return the scanner removes at the end of a line does not matter for being
a config line.
(6) `readConfig` returns no error on a file exactly when all its lines are shorter than
65536 bytes. -/
theorem readConfig_depends_on_config_lines :
    (∀ lines : List Str, (∀ l ∈ lines, '\n' ∉ l) →
      (∀ l ∈ lines, byteLen l < maxScanTokenSize) →
      readConfig (.present (unlines lines)) =
          readConfig (.present (unlines (lines.filter isConfigLine))) ∧
        (readConfig (.present (unlines lines))).2 = none) ∧
    (∀ (pre post : List Str) (line : Str), (∀ l ∈ pre ++ line :: post, '\n' ∉ l) →
      byteLen line < maxScanTokenSize → isConfigLine line = false →
      readConfig (.present (unlines (pre ++ line :: post))) =
        readConfig (.present (unlines (pre ++ post)))) ∧
    (∀ line, ':' ∉ line → parseLine line = ([], []) ∧ isConfigLine line = false) ∧
    (∀ line, isConfigLine line = true ↔ (parseLine line).1 ∈ configKeys) ∧
    (∀ line, isConfigLine (dropCR line) = isConfigLine line) ∧
    (∀ lines : List Str, (∀ l ∈ lines, '\n' ∉ l) →
      ((readConfig (.present (unlines lines))).2 = none ↔
        ∀ l ∈ lines, byteLen l < maxScanTokenSize)) := by
  refine ⟨?_, ?_, ?_, isConfigLine_iff, isConfigLine_dropCR, ?_⟩
  · intro lines hn hs
    have hn2 : ∀ l ∈ lines.filter isConfigLine, '\n' ∉ l :=
      fun l hl => hn l (List.mem_of_mem_filter hl)
    have hs2 : ∀ l ∈ lines.filter isConfigLine, byteLen l < maxScanTokenSize :=
      fun l hl => hs l (List.mem_of_mem_filter hl)
    have hf : (lines.map dropCR).filter isConfigLine =
        (lines.filter isConfigLine).map dropCR := by
      rw [List.filter_map]
      congr 1
      apply List.filter_congr
      intro l _
      exact isConfigLine_dropCR l
    simp only [readConfig, scan, splitLines_unlines lines hn, splitLines_unlines _ hn2,
      scanTokens_of_short lines hs, scanTokens_of_short _ hs2, readConfigLines, and_true]
    rw [foldl_applyLine_filter, hf]
  · intro pre post line hn hl hc
    have hn2 : ∀ l ∈ pre ++ post, '\n' ∉ l := by
      intro l hm
      apply hn l
      rcases List.mem_append.mp hm with h | h
      · exact List.mem_append_left _ h
      · exact List.mem_append_right _ (List.mem_cons_of_mem _ h)
    simp only [readConfig, scan, splitLines_unlines _ hn, splitLines_unlines _ hn2,
      readConfigLines]
    exact foldl_scanTokens_insert pre post line hl hc Config.zero
  · intro line h
    exact ⟨parseLine_of_not_mem h, by simp [isConfigLine, h]⟩
  · intro lines hn
    simp only [readConfig, scan, splitLines_unlines lines hn]
    exact scanTokens_err_eq_none_iff lines

/-- C7 on a concrete file: a comment line without colon, a line with an unknown key and a
line with the key in capitals change nothing, and no error is returned. -/
theorem readConfig_depends_on_config_lines_witness :
    (readConfig (.present (unlines ["# cassandra".toList, "host: 10.0.0.1".toList,
        "user: admin".toList, "Port: 1".toList, "port: 9042".toList])) =
      readConfig (.present (unlines ["host: 10.0.0.1".toList, "port: 9042".toList])) ∧
     (readConfig (.present (unlines ["# cassandra".toList, "host: 10.0.0.1".toList,
        "user: admin".toList, "Port: 1".toList, "port: 9042".toList]))).2 = none) ∧
    readConfig (.present (unlines ["host: 10.0.0.1".toList, "port: 9042".toList])) =
      ({ Host := "10.0.0.1".toList, Port := "9042".toList, Keyspace := [] }, none) :=
  ⟨readConfig_depends_on_config_lines.1 ["# cassandra".toList, "host: 10.0.0.1".toList,
      "user: admin".toList, "Port: 1".toList, "port: 9042".toList] (by decide) (by decide),
    by decide⟩
theorem dropCR_eq_self {x : Str} (h : x.getLast? ≠ some '\r') : dropCR x = x := by
  simp [dropCR, h]

theorem getLast?_noSpace {pre h : Str} (hp : pre.getLast? = some ' ')
    (hh : ∀ c ∈ h, isSpace c = false) : (pre ++ h).getLast? ≠ some '\r' := by
  rw [List.getLast?_append]
  by_cases hn : h = []
  · subst hn
    simp [hp]
  · rw [List.getLast?_eq_getLast h hn]
    simp only [Option.or_some, ne_eq, Option.some.injEq]
    intro e
    have := hh _ (List.getLast_mem hn)
    rw [e] at this
    simp [isSpace] at this

theorem trimSpace_noSpace {h : Str} (hh : ∀ c ∈ h, isSpace c = false) :
    trimSpace (' ' :: h) = h := by
  have h1 : List.dropWhile isSpace (' ' :: h) = h := by
    have e : isSpace ' ' = true := by decide
    rw [List.dropWhile_cons_of_pos e, List.dropWhile_eq_self_iff]
    intro hl
    simpa using hh _ (List.getElem_mem hl)
  have h2 : List.rdropWhile isSpace h = h := by
    rw [List.rdropWhile_eq_self_iff]
    intro hl
    simp [hh _ (List.getLast_mem hl)]
  rw [trimSpace, h1, h2]

theorem parseLine_host (h : Str) (hh : ∀ c ∈ h, isSpace c = false) :
    parseLine ("host: ".toList ++ h) = ("host".toList, h) := by
  have e : "host: ".toList ++ h = 'h' :: 'o' :: 's' :: 't' :: ':' :: ' ' :: h := rfl
  have t : trimSpace ['h', 'o', 's', 't'] = "host".toList := by decide
  rw [e]
  simp only [parseLine, splitN2, cutColon, Char.reduceEq, if_false, if_true, t,
    trimSpace_noSpace hh]

theorem parseLine_port (h : Str) (hh : ∀ c ∈ h, isSpace c = false) :
    parseLine ("port: ".toList ++ h) = ("port".toList, h) := by
  have e : "port: ".toList ++ h = 'p' :: 'o' :: 'r' :: 't' :: ':' :: ' ' :: h := rfl
  have t : trimSpace ['p', 'o', 'r', 't'] = "port".toList := by decide
  rw [e]
  simp only [parseLine, splitN2, cutColon, Char.reduceEq, if_false, if_true, t,
    trimSpace_noSpace hh]

theorem parseLine_keyspace (h : Str) (hh : ∀ c ∈ h, isSpace c = false) :
    parseLine ("keyspace: ".toList ++ h) = ("keyspace".toList, h) := by
  have e : "keyspace: ".toList ++ h =
      'k' :: 'e' :: 'y' :: 's' :: 'p' :: 'a' :: 'c' :: 'e' :: ':' :: ' ' :: h := rfl
  have t : trimSpace ['k', 'e', 'y', 's', 'p', 'a', 'c', 'e'] = "keyspace".toList := by decide
  rw [e]
  simp only [parseLine, splitN2, cutColon, Char.reduceEq, if_false, if_true, t,
    trimSpace_noSpace hh]

theorem not_mem_newline {h : Str} (hh : ∀ c ∈ h, isSpace c = false) : '\n' ∉ h := by
  intro hm
  have := hh _ hm
  simp [isSpace] at this

/-- The file `InitCassandraConfig` writes has three lines. -/
theorem initContent_eq_unlines (h p k : Str) :
    initContent h p k =
      unlines ["host: ".toList ++ h, "port: ".toList ++ p, "keyspace: ".toList ++ k] := by
  simp [initContent, unlines]

/-- What the scanner returns on the file `InitCassandraConfig` writes, when the three lines
are shorter than the scanner's limit. -/
theorem scan_initContent (h p k : Str) (hh : ∀ c ∈ h, isSpace c = false)
    (hp : ∀ c ∈ p, isSpace c = false) (hk : ∀ c ∈ k, isSpace c = false)
    (lh : byteLen ("host: ".toList ++ h) < maxScanTokenSize)
    (lp : byteLen ("port: ".toList ++ p) < maxScanTokenSize)
    (lk : byteLen ("keyspace: ".toList ++ k) < maxScanTokenSize) :
    scan (initContent h p k) =
      (["host: ".toList ++ h, "port: ".toList ++ p, "keyspace: ".toList ++ k], none) := by
  have n1 : '\n' ∉ "host: ".toList ++ h := by
    simp only [List.mem_append, not_or]
    exact ⟨by decide, not_mem_newline hh⟩
  have n2 : '\n' ∉ "port: ".toList ++ p := by
    simp only [List.mem_append, not_or]
    exact ⟨by decide, not_mem_newline hp⟩
  have n3 : '\n' ∉ "keyspace: ".toList ++ k := by
    simp only [List.mem_append, not_or]
    exact ⟨by decide, not_mem_newline hk⟩
  rw [scan, initContent_eq_unlines, splitLines_unlines, scanTokens_of_short]
  · simp only [List.map_cons, List.map_nil]
    rw [dropCR_eq_self (getLast?_noSpace (by decide) hh),
      dropCR_eq_self (getLast?_noSpace (by decide) hp),
      dropCR_eq_self (getLast?_noSpace (by decide) hk)]
  · intro l hl
    simp only [List.mem_cons, List.mem_singleton, List.not_mem_nil, or_false] at hl
    rcases hl with e | e | e <;> subst e <;> assumption
  · intro l hl
    simp only [List.mem_cons, List.mem_singleton, List.not_mem_nil, or_false] at hl
    rcases hl with e | e | e <;> subst e <;> assumption
/-! ## C10 -/

/-- C10: the claim fails at a value too long for the scanner.  A host of 65530 letters `a`
is not empty and has no white space; the line `host: ` followed by it has 65536 bytes, and
on the text `InitCassandraConfig` writes for it `readConfig` returns the zero Config and
`bufio.ErrTooLong`, not the config written. -/
theorem long_host_breaks_round_trip :
    List.replicate 65530 'a' ≠ [] ∧
    (∀ c ∈ List.replicate 65530 'a', isSpace c = false) ∧
    byteLen ("host: ".toList ++ List.replicate 65530 'a') = 65536 ∧
    readConfig (.present (initContent (List.replicate 65530 'a') "9042".toList "ks".toList)) =
      (Config.zero, some .tooLong) ∧
    (Config.zero, some Error.tooLong) ≠
      (({ Host := List.replicate 65530 'a', Port := "9042".toList, Keyspace := "ks".toList },
        none) : Config × Option Error) := by
  have hb : byteLen ("host: ".toList ++ List.replicate 65530 'a') = 65536 := by
    rw [byteLen_append, byteLen_replicate]
    decide
  refine ⟨?_, ?_, hb, ?_, ?_⟩
  · intro e
    have := congrArg List.length e
    rw [List.length_replicate] at this
    exact absurd this (by decide)
  · intro c hc
    rw [List.eq_of_mem_replicate hc]
    decide
  · rw [initContent_eq_unlines, unlines_cons]
    apply readConfig_tooLong_first
    · simp only [List.mem_append, not_or]
      exact ⟨by decide, not_mem_replicate (by decide)⟩
    · rw [hb]
      decide
  · intro e
    exact absurd (congrArg Prod.snd e) (by decide)

/-- C10, amended by the scanner's limit: for all strings `h`, `p`, `k` without white space
(line breaks are white space; colons are allowed, and so is the empty string, which the
claim excludes) for which each of the three lines written, `host: h`, `port: p` and
`keyspace: k`, is shorter than `maxScanTokenSize` = 65536 bytes, `readConfig` on a file
holding the text `InitCassandraConfig` writes returns `Config{Host: h, Port: p,
Keyspace: k}` and no error. -/
theorem config_round_trip (h p k : Str) (hh : ∀ c ∈ h, isSpace c = false)
    (hp : ∀ c ∈ p, isSpace c = false) (hk : ∀ c ∈ k, isSpace c = false)
    (lh : byteLen ("host: ".toList ++ h) < maxScanTokenSize)
    (lp : byteLen ("port: ".toList ++ p) < maxScanTokenSize)
    (lk : byteLen ("keyspace: ".toList ++ k) < maxScanTokenSize) :
    readConfig (.present (initContent h p k)) =
      ({ Host := h, Port := p, Keyspace := k }, none) := by
  have k1 : "port".toList ≠ "host".toList := by decide
  have k2 : "keyspace".toList ≠ "host".toList := by decide
  have k3 : "keyspace".toList ≠ "port".toList := by decide
  simp only [readConfig, scan_initContent h p k hh hp hk lh lp lk, readConfigLines,
    List.foldl_cons, List.foldl_nil, applyLine,
    parseLine_host h hh, parseLine_port p hp, parseLine_keyspace k hk, Config.zero,
    if_true, if_neg k1, if_neg k2, if_neg k3]

/-- C10 for an IPv6 host with port: the colons of the value are kept. -/
theorem config_round_trip_witness :
    readConfig (.present
        (initContent "[::1]:9042".toList "9042".toList "test_ks".toList)) =
      ({ Host := "[::1]:9042".toList, Port := "9042".toList, Keyspace := "test_ks".toList },
        none) ∧
    String.mk (initContent "[::1]:9042".toList "9042".toList "test_ks".toList) =
      "host: [::1]:9042\nport: 9042\nkeyspace: test_ks\n" :=
  ⟨config_round_trip _ _ _ (by decide) (by decide) (by decide) (by decide) (by decide)
    (by decide), by decide⟩
/-! ## C9 -/

/-- C9, what holds and what does not.  For every `int` above the smallest one, `comma(n)`
is the decimal representation of `n` with a comma between groups of three digits counted
from the right.  For the smallest `int`, `-value` wraps around to the same negative value,
`Sprintf` prints its sign, and `comma` returns a text with two minus signs, which without
its commas is not the decimal string of the value. -/
theorem comma_correct_except_minInt :
    (∀ n : Int, minInt < n → n ≤ maxInt →
      ∃ g gs, comma n = (if n < 0 then ['-'] else []) ++ List.intercalate [','] (g :: gs) ∧
        (g :: gs).flatten = Nat.toDigits 10 n.natAbs ∧
        (∀ c ∈ Nat.toDigits 10 n.natAbs, c.isDigit = true) ∧
        1 ≤ g.length ∧ g.length ≤ 3 ∧ (∀ x ∈ gs, x.length = 3) ∧
        (comma n).filter (fun c => c != ',') = fmtD n) ∧
    wrapInt (-minInt) = minInt ∧
    String.mk (fmtD minInt) = "-9223372036854775808" ∧
    String.mk (comma minInt) = "--9,223,372,036,854,775,808" ∧
    (comma minInt).filter (fun c => c != ',') ≠ fmtD minInt :=
  ⟨comma_of_ne_minInt, by decide, by decide, by decide, by decide⟩

/-- C9 on ordinary values. -/
theorem comma_examples :
    String.mk (comma 1234567) = "1,234,567" ∧ String.mk (comma (-1234567)) = "-1,234,567" ∧
    String.mk (comma 999) = "999" ∧ String.mk (comma 1000) = "1,000" ∧
    String.mk (comma 0) = "0" ∧
    String.mk (comma 9223372036854775807) = "9,223,372,036,854,775,807" ∧
    String.mk (comma (-9223372036854775807)) = "-9,223,372,036,854,775,807" := by
  decide

end CassandraDD
